import Mathlib

/-!
# Verification of the MarkdownViewer core text-processing subsystem

This file gives a shallow embedding, over `List Char`, of the core
markdown-analysis functions of the MarkdownViewer repository:

* `src/utils/slugify.ts` — `slugify`, `generateUniqueSlug`,
  `precomputeHeaderIds`, `extractMarkdownHeaders`, `isInsideInlineCode`;
* `src/utils/markdownParser.ts` — the regex-pass tokenizer
  (`MarkdownParser.parse`, `parseInlineElements`) and `validateMarkdown`;
* `src/components/SyntaxHighlightedEditor.tsx` — `filterOverlappingTokens`;
* `src/components/ContentArea.tsx` — the cursor→section resolution core of
  `handleCursorPositionChange`.

Strings are modelled as `List Char`; JavaScript regular-expression passes are
modelled by hand-rolled matchers reproducing the backtracking behaviour of the
concrete patterns used in the source.  `Set<string>` is modelled as a
`List (List Char)` used for membership, and `Map<string,string>` as an
association list with JavaScript `Map.set` overwrite semantics.

Theorems at the end settle the frozen claims about this subsystem.
-/
set_option autoImplicit false

namespace MV

/-! ## Character classes (ECMAScript semantics) -/
/-- ECMAScript `\s`: whitespace and line terminators
(space, tab, LF, VT, FF, CR, and the Unicode space/line separators). -/
def isJsWs (c : Char) : Bool :=
  c.toNat = 0x20 || c.toNat = 0x09 || c.toNat = 0x0A || c.toNat = 0x0B ||
  c.toNat = 0x0C || c.toNat = 0x0D || c.toNat = 0xA0 || c.toNat = 0x1680 ||
  (0x2000 ≤ c.toNat && c.toNat ≤ 0x200A) ||
  c.toNat = 0x2028 || c.toNat = 0x2029 || c.toNat = 0x202F ||
  c.toNat = 0x205F || c.toNat = 0x3000 || c.toNat = 0xFEFF

/-- `[a-zA-Z0-9]`. -/
def isAsciiAlnum (c : Char) : Bool :=
  (0x61 ≤ c.toNat && c.toNat ≤ 0x7A) ||
  (0x41 ≤ c.toNat && c.toNat ≤ 0x5A) ||
  (0x30 ≤ c.toNat && c.toNat ≤ 0x39)

/-- `[a-z0-9]` (used only to describe `slugify` output). -/
def isLowerAlnum (c : Char) : Bool :=
  (0x61 ≤ c.toNat && c.toNat ≤ 0x7A) || (0x30 ≤ c.toNat && c.toNat ≤ 0x39)

/-- `[0-9]` (ECMAScript `\d`). -/
def isDigitC (c : Char) : Bool :=
  0x30 ≤ c.toNat && c.toNat ≤ 0x39

/-- Convenience: the character list of a string literal. -/
def strToL (s : String) : List Char := s.data

/-! ## Generic list helpers -/
/-- `source.substring a b` (half-open).  Out-of-range indices truncate, as in
JavaScript. -/
def slice (s : List Char) (a b : Nat) : List Char :=
  ((s.drop a).take (b - a))

/-- Length of the maximal run of characters satisfying `p` starting at
position `i`. -/
def runLen (p : Char → Bool) (s : List Char) (i : Nat) : Nat :=
  ((s.drop i).takeWhile p).length

/-- `s[i]` as an `Option`. -/
def charAt (s : List Char) (i : Nat) : Option Char := s[i]?

/-- Does `pat` occur at position `i` of `s`? -/
def startsWithAt (s pat : List Char) (i : Nat) : Bool :=
  (s.drop i).take pat.length == pat

/-! ## slugify.ts -/
/-- `.replace(/\s+/g, ' ')`: collapse every maximal whitespace run to a single
space.  The boolean argument records whether the previous character was part
of a whitespace run. -/
def collapseWs : List Char → Bool → List Char
  | [], _ => []
  | c :: rest, prev =>
    if isJsWs c then
      if prev then collapseWs rest true else ' ' :: collapseWs rest true
    else c :: collapseWs rest false

/-- JavaScript `String.prototype.trim`. -/
def trimJs (s : List Char) : List Char :=
  ((s.dropWhile isJsWs).reverse.dropWhile isJsWs).reverse

/--
`slugify` from `src/utils/slugify.ts`:
remove non-alphanumeric non-whitespace characters, collapse whitespace runs to
one space, trim, replace spaces by hyphens, lowercase.  (`Char.toLower` agrees
with `String.prototype.toLowerCase` on the ASCII-only strings reaching the
final step.)
-/
def slugify (text : List Char) : List Char :=
  List.map Char.toLower
    (List.map (fun c => if isJsWs c then '-' else c)
      (trimJs
        (collapseWs (text.filter (fun c => isAsciiAlnum c || isJsWs c)) false)))

/-! ## Decimal rendering of counters (JS template `${counter}`) -/
/-- Fuel-based decimal rendering, accumulating digits from the right. -/
def natToDecAux : Nat → Nat → List Char → List Char
  | 0, _, acc => acc
  | fuel+1, n, acc =>
    let d := Char.ofNat (48 + n % 10)
    if n < 10 then d :: acc else natToDecAux fuel (n / 10) (d :: acc)

/-- Decimal digit string of `n`. -/
def natToDec (n : Nat) : List Char := natToDecAux (n + 1) n []

/-- Recursive description of the decimal digits (for reasoning). -/
def natDigits (n : Nat) : List Char :=
  if n < 10 then [Char.ofNat (48 + n % 10)]
  else natDigits (n / 10) ++ [Char.ofNat (48 + n % 10)]
  decreasing_by exact Nat.div_lt_self (by omega) (by omega)

/-- Parse a digit string back to its value (left fold). -/
def decVal (l : List Char) : Nat :=
  l.foldl (fun a c => a * 10 + (c.toNat - 48)) 0

/-! ## generateUniqueSlug / precomputeHeaderIds (slugify.ts) -/
/-- JS `Set.has` on the modelled id set. -/
def jsSetHas (s : List (List Char)) (x : List Char) : Bool := s.contains x

/-- JS `Set.add`; insertion order is immaterial since the set is only
queried for membership. -/
def jsSetAdd (s : List (List Char)) (x : List Char) : List (List Char) :=
  if jsSetHas s x then s else x :: s

/-- The candidate `${baseSlug}-${counter}`. -/
def slugCand (base : List Char) (k : Nat) : List Char := base ++ '-' :: natToDec k

/-- The `while (existingIds.has(uniqueSlug))` search, starting at counter `k`.
The fuel (one more than the set size at the outside call) is provably enough
because the candidates are pairwise distinct. -/
def guFind (base : List Char) (ids : List (List Char)) : Nat → Nat → Nat
  | 0, k => k
  | fuel+1, k => if jsSetHas ids (slugCand base k) then guFind base ids fuel (k+1) else k

/--
`generateUniqueSlug` from `src/utils/slugify.ts`; the mutable `existingIds`
set is modelled by returning the updated set alongside the produced slug.
-/
def generateUniqueSlug (text : List Char) (existingIds : List (List Char)) :
    List Char × List (List Char) :=
  let baseSlug := if slugify text == [] then strToL "heading" else slugify text
  if !(jsSetHas existingIds baseSlug) then
    (baseSlug, jsSetAdd existingIds baseSlug)
  else
    let uniqueSlug := slugCand baseSlug (guFind baseSlug existingIds (existingIds.length + 1) 2)
    (uniqueSlug, jsSetAdd existingIds uniqueSlug)

/-! ## extractMarkdownHeaders (slugify.ts) -/
/-- Split on `'\n'`, JavaScript `String.prototype.split` semantics. -/
def splitNl : List Char → List (List Char)
  | [] => [[]]
  | c :: rest =>
    if c = '\n' then [] :: splitNl rest
    else
      match splitNl rest with
      | [] => [[c]]
      | l :: ls => (c :: l) :: ls

/-- `trimmedLine.match(/^(`{3,}|~{3,})/)`: the fence character if the line
opens with three or more backticks or tildes. -/
def fenceRun (tl : List Char) : Option Char :=
  if 3 ≤ runLen (fun c => c == '`') tl 0 then some '`'
  else if 3 ≤ runLen (fun c => c == '~') tl 0 then some '~'
  else none

/-- `line.match(/^(\s{4,}|\t+)/)`: indented code line. -/
def indentMatch (line : List Char) : Bool :=
  4 ≤ runLen isJsWs line 0 || charAt line 0 == some '\t'

/-- `headerText.match(/^`+$/)`. -/
def allBackticks (t : List Char) : Bool :=
  !t.isEmpty && t.all (fun c => c == '`')

/--
Backtracking tail of `/^(#{1,6})\s+(.+)$/` on a single line (no `m` flag, so
`$` is end of string): try separator lengths from the greedy maximum down,
and accept the first whose remainder is nonempty and newline-free.
`c` is the length of the `#` run; the argument is the candidate separator
length.
-/
def hdrTail (line : List Char) (c : Nat) : Nat → Option (List Char)
  | 0 => none
  | w'+1 =>
    let rest := line.drop (c + w' + 1)
    if !rest.isEmpty && rest.all (fun ch => ch != '\n') then some rest
    else hdrTail line c w'

/-- Single-line match of `/^(#{1,6})\s+(.+)$/`, returning the `(.+)` group. -/
def lineHeaderMatch (line : List Char) : Option (List Char) :=
  let c := runLen (fun ch => ch == '#') line 0
  if 1 ≤ c && c ≤ 6 then hdrTail line c (runLen isJsWs line c) else none

/-- The inner backtick-scanning loop of `isInsideInlineCode`.  The fuel is one
more than `position`, enough since the index strictly increases. -/
def iiicAux : Nat → List Char → Nat → Nat → Bool → Bool
  | 0, _, _, _, st => st
  | fuel+1, line, i, pos, st =>
    if i < pos ∧ i < line.length then
      if charAt line i == some '`' then
        let k := runLen (fun c => c == '`') line i
        iiicAux fuel line (i + k) pos (if k = 1 then !st else st)
      else iiicAux fuel line (i + 1) pos st
    else st

/-- `isInsideInlineCode` from `src/utils/slugify.ts`. -/
def isInsideInlineCode (line : List Char) (position : Nat) : Bool :=
  iiicAux (position + 1) line 0 position false

/-- The per-line loop of `extractMarkdownHeaders`; the `Option Char` state is
the fence flag together with the recorded fence character. -/
def extractAux : List (List Char) → Option Char → List (List Char)
  | [], _ => []
  | line :: rest, fence =>
    let tl := trimJs line
    match fenceRun tl with
    | some fc =>
      match fence with
      | none => extractAux rest (some fc)
      | some pc =>
        if startsWithAt tl [pc, pc, pc] 0 then extractAux rest none
        else extractAux rest (some pc)
    | none =>
      if fence.isSome then extractAux rest fence
      else if indentMatch line then extractAux rest fence
      else
        match lineHeaderMatch tl with
        | some t =>
          let headerText := trimJs t
          if !allBackticks headerText && !isInsideInlineCode line 0 then
            headerText :: extractAux rest fence
          else extractAux rest fence
        | none => extractAux rest fence

/-- `extractMarkdownHeaders` from `src/utils/slugify.ts`. -/
def extractMarkdownHeaders (content : List Char) : List (List Char) :=
  if content.isEmpty then [] else extractAux (splitNl content) none

/-! ## precomputeHeaderIds (slugify.ts) -/
/-- JS `Map.set`: overwrite the value of an existing key in place, else
append the new entry. -/
def jsMapSet (m : List (List Char × List Char)) (k v : List Char) :
    List (List Char × List Char) :=
  if m.any (fun p => p.1 == k) then
    m.map (fun p => if p.1 == k then (k, v) else p)
  else m ++ [(k, v)]

/-- JS `Map.get` (and `Map.has` via `Option.isSome`). -/
def jsMapLookup (m : List (List Char × List Char)) (k : List Char) :
    Option (List Char) :=
  (m.find? (fun p => p.1 == k)).map (·.2)

/-- The `headers.forEach` loop of `precomputeHeaderIds`: thread the map and
the used-id set through the header list. -/
def headerIdsAux : List (List Char) → List (List Char × List Char) →
    List (List Char) → List (List Char × List Char)
  | [], acc, _ => acc
  | t :: rest, acc, used =>
    let r := generateUniqueSlug t used
    headerIdsAux rest (jsMapSet acc t r.1) r.2

/-- `precomputeHeaderIds` from `src/utils/slugify.ts`. -/
def precomputeHeaderIds (content : List Char) : List (List Char × List Char) :=
  if content.isEmpty then []
  else headerIdsAux (extractMarkdownHeaders content) [] []

/-- The ordered `(headerText, slug)` pairs generated during one
`precomputeHeaderIds` pass (before the map collapses duplicate keys). -/
def headerSlugPairsAux : List (List Char) → List (List Char) →
    List (List Char × List Char)
  | [], _ => []
  | t :: rest, used =>
    let r := generateUniqueSlug t used
    (t, r.1) :: headerSlugPairsAux rest r.2

/-- Ordered `(headerText, slug)` pairs of one document pass. -/
def headerSlugPairs (content : List Char) : List (List Char × List Char) :=
  headerSlugPairsAux (extractMarkdownHeaders content) []

/-! ## Cursor → section resolution (ContentArea.tsx) -/
/-- The line-locating loop of `handleCursorPositionChange`: first line whose
end boundary (cumulative character count plus one per newline) exceeds the
cursor position. -/
def fclAux : List (List Char) → Nat → Nat → Nat → Option Nat
  | [], _, _, _ => none
  | line :: rest, i, cnt, pos =>
    if cnt + line.length + 1 > pos then some i
    else fclAux rest (i + 1) (cnt + line.length + 1) pos

/-- `currentLine` after the loop (initialised to `0`, unchanged when the loop
never breaks). -/
def findCursorLine (lines : List (List Char)) (pos : Nat) : Nat :=
  (fclAux lines 0 0 pos).getD 0

/-- The backward scan for the nearest header at or above line `cl`; the
result is `[]` (JS `''`) when no line matches `/^#{1,6}\s+(.+)$/`. -/
def nearestHeaderText (lines : List (List Char)) (cl : Nat) : List Char :=
  (((lines.take (cl + 1)).reverse.findSome? lineHeaderMatch).map trimJs).getD []

/-- The pure core of `handleCursorPositionChange` from
`src/components/ContentArea.tsx`: which anchor id (if any) the caret at
`pos` resolves to, given the precomputed id map. -/
def resolveSection (content : List Char) (pos : Nat)
    (idMap : List (List Char × List Char)) : Option (List Char) :=
  let lines := splitNl content
  let t := nearestHeaderText lines (findCursorLine lines pos)
  if t.isEmpty then none else jsMapLookup idMap t

/-! ## The tokenizer (markdownParser.ts)

Each regex pass of `MarkdownParser.parse` is modelled by a hand-rolled
matcher reproducing the backtracking behaviour of the concrete ECMAScript
pattern, and a scan reproducing `String.prototype.matchAll` (attempt at each
position from the previous match end, advancing by one on failure). -/
/-- ECMAScript line terminators (`\n`, `\r`, U+2028, U+2029): the characters
excluded by `.` and recognised by multiline `^`/`$`. -/
def isLineTerm (c : Char) : Bool :=
  c.toNat = 0x0A || c.toNat = 0x0D || c.toNat = 0x2028 || c.toNat = 0x2029

/-- Multiline `^`: start of input or preceded by a line terminator. -/
def lineStartM (s : List Char) (i : Nat) : Bool :=
  i == 0 ||
    (match charAt s (i - 1) with
     | some c => isLineTerm c
     | none => false)

/-- Multiline `$`: end of input or followed by a line terminator. -/
def dollarM (s : List Char) (p : Nat) : Bool :=
  p == s.length ||
    (match charAt s p with
     | some c => isLineTerm c
     | none => false)

/-- Run of `\s` characters at `i`. -/
def wsRun (s : List Char) (i : Nat) : Nat := runLen isJsWs s i

/-- Run of `.`-matchable characters (non line terminators) at `i`. -/
def dotRun (s : List Char) (i : Nat) : Nat :=
  runLen (fun c => !isLineTerm c) s i

/-- A classified span; `MarkdownToken` from `markdownParser.ts` (the `end`
field is called `endPos`, `end` being reserved in Lean). -/
structure MarkdownToken where
  type : String
  start : Nat
  endPos : Nat
  content : List Char
  raw : List Char
  deriving DecidableEq, Repr

/-- `matchAll` driver: attempt the matcher at each position starting from the
previous match end (or one past a failed attempt).  Every matcher below
consumes at least one character on success, so fuel `n + 1` covers the scan of
a string of length `n`. -/
def scanAllAux {α : Type} (f : Nat → Option (Nat × α)) : Nat → Nat → List α
  | 0, _ => []
  | fuel+1, i =>
    match f i with
    | none => scanAllAux f fuel (i + 1)
    | some (e, a) => a :: scanAllAux f fuel e

/-- All matches of `f` over a string of length `n`. -/
def scanAll {α : Type} (f : Nat → Option (Nat × α)) (n : Nat) : List α :=
  scanAllAux f (n + 1) 0

/-- Backtracking search for the `\s+` separator length when the greedy run
reaches the end of input: largest `m` (at most the initial argument, at least
1) such that the character after `m` separator characters can start `(.+)`. -/
def tailBackM (s : List Char) (j : Nat) : Nat → Option (Nat × Nat)
  | 0 => none
  | m+1 =>
    match charAt s (j + m + 1) with
    | some c =>
      if isLineTerm c then tailBackM s j m
      else some (m + 1, dotRun s (j + m + 1))
    | none => tailBackM s j m

/-- The tail `\s+(.+)$` of the multiline header/list patterns, at position
`j`: returns the separator length and the `(.+)` group length. -/
def seqTailM (s : List Char) (j : Nat) : Option (Nat × Nat) :=
  let w := wsRun s j
  if w = 0 then none
  else if j + w < s.length then some (w, dotRun s (j + w))
  else tailBackM s j (w - 1)

/-! ### Per-pattern matchers -/
/-- Match data for `/^(#{1,6})\s+(.+)$/gm`. -/
structure HeaderM where
  idx : Nat
  marker : Nat
  sep : Nat
  text : Nat
  deriving DecidableEq, Repr

def headerMatchAt (s : List Char) (i : Nat) : Option (Nat × HeaderM) :=
  if lineStartM s i then
    let c := runLen (fun ch => ch == '#') s i
    if 1 ≤ c && c ≤ 6 then
      match seqTailM s (i + c) with
      | some (w, t) => some (i + c + w + t, ⟨i, c, w, t⟩)
      | none => none
    else none
  else none

/-- `\s*$` with backtracking: the largest whitespace-prefix length admitting a
multiline `$` right after it. -/
def wsDollarAux (s : List Char) (q : Nat) : Nat → Option Nat
  | 0 => if dollarM s q then some 0 else none
  | m+1 => if dollarM s (q + m + 1) then some (m + 1) else wsDollarAux s q m

def wsDollarM (s : List Char) (q : Nat) : Option Nat :=
  wsDollarAux s q (wsRun s q)

/-- Match data for `/^(```|~~~)([^\n]*)\n([\s\S]*?)\n\1\s*$/gm`:
`idx` and the match length. -/
structure CodeBlockM where
  idx : Nat
  len : Nat
  deriving DecidableEq, Repr

/-- Lazy search for the closing `\n\1\s*$` of a fenced code block: smallest
body length `k` whose following newline, fence and trailing whitespace close
the block. -/
def cbSearch (s : List Char) (d : Char) (p : Nat) : Nat → Nat → Option (Nat × Nat)
  | 0, _ => none
  | fuel+1, k =>
    if charAt s (p + k) == some '\n' && startsWithAt s [d, d, d] (p + k + 1) then
      match wsDollarM s (p + k + 4) with
      | some m => some (k, m)
      | none => cbSearch s d p fuel (k + 1)
    else cbSearch s d p fuel (k + 1)

def codeBlockMatchAt (s : List Char) (i : Nat) : Option (Nat × CodeBlockM) :=
  if lineStartM s i then
    match charAt s i with
    | some c =>
      if (c == '`' || c == '~') && startsWithAt s [c, c, c] i then
        let a := runLen (fun ch => ch != '\n') s (i + 3)
        if charAt s (i + 3 + a) == some '\n' then
          match cbSearch s c (i + 4 + a) (s.length + 1) 0 with
          | some (k, m) =>
            some (i + 4 + a + k + 4 + m, ⟨i, 4 + a + k + 4 + m⟩)
          | none => none
        else none
      else none
    | none => none
  else none

/-- Match data for `/(`+)((?:(?!`).)*?)\1/g`: marker and content lengths. -/
structure InlineCodeM where
  idx : Nat
  marker : Nat
  code : Nat
  deriving DecidableEq, Repr

/-- Backtracking over the opening-run length (greedy `/`+/` tries the longest
first).  `r` is the length of the full backtick run at `i`. -/
def icTry (s : List Char) (i r : Nat) : Nat → Option (Nat × Nat)
  | 0 => none
  | ml+1 =>
    let p := i + (ml + 1)
    if ml + 1 < r then
      if ml + 1 ≤ r - (ml + 1) then some (ml + 1, 0) else icTry s i r ml
    else
      let K := runLen (fun c => !(c == '`') && !isLineTerm c) s p
      if charAt s (p + K) == some '`' &&
          ml + 1 ≤ runLen (fun c => c == '`') s (p + K) then
        some (ml + 1, K)
      else icTry s i r ml

def inlineCodeMatchAt (s : List Char) (i : Nat) : Option (Nat × InlineCodeM) :=
  let r := runLen (fun c => c == '`') s i
  if r = 0 then none
  else
    match icTry s i r r with
    | some (ml, k) => some (i + ml + k + ml, ⟨i, ml, k⟩)
    | none => none

/-- Match data for `/\[([^\]]*?)\]\(([^)]+)\)/g`:
link-text and url lengths. -/
structure LinkM where
  idx : Nat
  tlen : Nat
  ulen : Nat
  deriving DecidableEq, Repr

/-- The bracket-paren shape shared by the link and image patterns, at the
position of the opening `[`. -/
def linkShapeAt (s : List Char) (i : Nat) : Option (Nat × Nat) :=
  if charAt s i == some '[' then
    let k := runLen (fun c => !(c == ']')) s (i + 1)
    if charAt s (i + 1 + k) == some ']' && charAt s (i + 2 + k) == some '(' then
      let u := runLen (fun c => !(c == ')')) s (i + 3 + k)
      if 1 ≤ u && charAt s (i + 3 + k + u) == some ')' then some (k, u)
      else none
    else none
  else none

def linkMatchAt (s : List Char) (i : Nat) : Option (Nat × LinkM) :=
  match linkShapeAt s i with
  | some (k, u) => some (i + k + u + 4, ⟨i, k, u⟩)
  | none => none

def imageMatchAt (s : List Char) (i : Nat) : Option (Nat × LinkM) :=
  if charAt s i == some '!' then
    match linkShapeAt s (i + 1) with
    | some (k, u) => some (i + 1 + k + u + 4, ⟨i, k, u⟩)
    | none => none
  else none

/-- Match data for the three list patterns. -/
structure UListM where
  idx : Nat
  ind : Nat
  sep : Nat
  text : Nat
  deriving DecidableEq, Repr

def uListMatchAt (s : List Char) (i : Nat) : Option (Nat × UListM) :=
  if lineStartM s i then
    let w0 := wsRun s i
    if charAt s (i + w0) == some '*' || charAt s (i + w0) == some '+' ||
        charAt s (i + w0) == some '-' then
      match seqTailM s (i + w0 + 1) with
      | some (w, t) => some (i + w0 + 1 + w + t, ⟨i, w0, w, t⟩)
      | none => none
    else none
  else none

structure OListM where
  idx : Nat
  ind : Nat
  dig : Nat
  sep : Nat
  text : Nat
  deriving DecidableEq, Repr

def oListMatchAt (s : List Char) (i : Nat) : Option (Nat × OListM) :=
  if lineStartM s i then
    let w0 := wsRun s i
    let d := runLen isDigitC s (i + w0)
    if 1 ≤ d && charAt s (i + w0 + d) == some '.' then
      match seqTailM s (i + w0 + d + 1) with
      | some (w, t) => some (i + w0 + d + 1 + w + t, ⟨i, w0, d, w, t⟩)
      | none => none
    else none
  else none

structure TaskM where
  idx : Nat
  ind : Nat
  sep1 : Nat
  mid : Char
  sep2 : Nat
  text : Nat
  deriving DecidableEq, Repr

def taskMatchAt (s : List Char) (i : Nat) : Option (Nat × TaskM) :=
  if lineStartM s i then
    let w0 := wsRun s i
    if charAt s (i + w0) == some '*' || charAt s (i + w0) == some '+' ||
        charAt s (i + w0) == some '-' then
      let w1 := wsRun s (i + w0 + 1)
      let q := i + w0 + 1 + w1
      if 1 ≤ w1 && charAt s q == some '[' &&
          (charAt s (q + 1) == some ' ' || charAt s (q + 1) == some 'x') &&
          charAt s (q + 2) == some ']' then
        match seqTailM s (q + 3) with
        | some (w2, t) =>
          some (q + 3 + w2 + t,
            ⟨i, w0, w1, (charAt s (q + 1)).getD ' ', w2, t⟩)
        | none => none
      else none
    else none
  else none

/-- Match data for the emphasis patterns: index and content length. -/
structure EmphM where
  idx : Nat
  clen : Nat
  deriving DecidableEq, Repr

/-- Distance to the first position where the two-character delimiter `[d,d]`
starts, failing on a line terminator (the `(?:(?!\1).)` content chars). -/
def scanToDelim2 (d : Char) : List Char → Option Nat
  | [] => none
  | c :: rest =>
    if c == d && rest.head? == some d then some 0
    else if isLineTerm c then none
    else (scanToDelim2 d rest).map (· + 1)

/-- `/(\*\*|__)((?:(?!\1).)+?)\1/g` at `i`; the stored character is the first
delimiter character. -/
def emph2MatchAt (s : List Char) (i : Nat) (d : Char) : Option (Nat × EmphM) :=
  if startsWithAt s [d, d] i then
    match scanToDelim2 d (s.drop (i + 2)) with
    | some 0 => none
    | some q => some (i + 2 + q + 2, ⟨i, q⟩)
    | none => none
  else none

def boldMatchAt (s : List Char) (i : Nat) : Option (Nat × EmphM) :=
  match emph2MatchAt s i '*' with
  | some r => some r
  | none => emph2MatchAt s i '_'

def strikeMatchAt (s : List Char) (i : Nat) : Option (Nat × EmphM) :=
  emph2MatchAt s i '~'

/-- Content scan for `/(\*|_)((?:(?!\*\*|__|\1).)+?)\1/g` with delimiter `d`:
stop successfully at `d`, fail at a line terminator or where the other
doubled delimiter starts. -/
def italicScan (d bad : Char) : List Char → Option Nat
  | [] => none
  | c :: rest =>
    if c == d then some 0
    else if isLineTerm c then none
    else if c == bad && rest.head? == some bad then none
    else (italicScan d bad rest).map (· + 1)

def italic1MatchAt (s : List Char) (i : Nat) (d bad : Char) : Option (Nat × EmphM) :=
  if charAt s i == some d then
    match italicScan d bad (s.drop (i + 1)) with
    | some 0 => none
    | some q => some (i + 1 + q + 1, ⟨i, q⟩)
    | none => none
  else none

def italicMatchAt (s : List Char) (i : Nat) : Option (Nat × EmphM) :=
  match italic1MatchAt s i '*' '_' with
  | some r => some r
  | none => italic1MatchAt s i '_' '*'

/-- Match data for `/^(\s*)(>+)\s*(.*)$/gm`. -/
structure BqM where
  idx : Nat
  ind : Nat
  marks : Nat
  sep : Nat
  text : Nat
  deriving DecidableEq, Repr

def bquoteMatchAt (s : List Char) (i : Nat) : Option (Nat × BqM) :=
  if lineStartM s i then
    let w0 := wsRun s i
    let g := runLen (fun c => c == '>') s (i + w0)
    if g = 0 then none
    else
      let w2 := wsRun s (i + w0 + g)
      let t := dotRun s (i + w0 + g + w2)
      some (i + w0 + g + w2 + t, ⟨i, w0, g, w2, t⟩)
  else none

/-- Match data for `/^(\s*)([-*_]){3,}\s*$/gm` and the table
pattern: index and match length. -/
structure SpanM where
  idx : Nat
  len : Nat
  deriving DecidableEq, Repr

def hrMatchAt (s : List Char) (i : Nat) : Option (Nat × SpanM) :=
  if lineStartM s i then
    let w0 := wsRun s i
    let h := runLen (fun c => c == '-' || c == '*' || c == '_') s (i + w0)
    if 3 ≤ h then
      match wsDollarM s (i + w0 + h) with
      | some m => some (i + w0 + h + m, ⟨i, w0 + h + m⟩)
      | none => none
    else none
  else none

/-- Backtracking over the `.+` length of the table pattern: largest content
length whose following `|` and `\s*$` close the row. -/
def tblTry (s : List Char) (p : Nat) : Nat → Option (Nat × Nat)
  | 0 => none
  | t+1 =>
    if charAt s (p + t + 1) == some '|' then
      match wsDollarM s (p + t + 2) with
      | some m => some (t + 1, m)
      | none => tblTry s p t
    else tblTry s p t

def tableMatchAt (s : List Char) (i : Nat) : Option (Nat × SpanM) :=
  if lineStartM s i then
    let w0 := wsRun s i
    if charAt s (i + w0) == some '|' then
      let p := i + w0 + 1
      match tblTry s p (dotRun s p) with
      | some (t, m) => some (p + t + 1 + m, ⟨i, w0 + 1 + t + 1 + m⟩)
      | none => none
    else none
  else none

/-! ### Token emission per pass -/
/-- Insert `x` into a list sorted by the strict comparator `lt`, after every
element strictly before it (and after every tie, which preserves the original
relative order of ties). -/
def stableInsert {o : Type} (lt : o → o → Bool) (x : o) : List o → List o
  | [] => [x]
  | y :: ys => if lt y x then y :: stableInsert lt x ys else x :: y :: ys

/-- The stable sort determined by the strict comparator `lt`: the unique
sorted permutation preserving the relative order of ties, which is what
`Array.prototype.sort` (stable per the ECMAScript specification) produces for
the corresponding numeric comparators. -/
def stableSort {o : Type} (lt : o → o → Bool) : List o → List o
  | [] => []
  | x :: xs => stableInsert lt x (stableSort lt xs)

/-- `MarkdownParser.isInsideToken`: is the span `[start, endp)` already inside
one of the accumulated tokens?  (In the source the accumulated list also
contains tokens pushed by earlier matches of the *same* pass; those all end
at or before the current match start, so they can never trigger the check —
the passes below therefore receive only the tokens of earlier passes.) -/
def isInsideToken (tokens : List MarkdownToken) (start endp : Nat) : Bool :=
  tokens.any fun tok =>
    (decide (start ≥ tok.start) && decide (start < tok.endPos)) ||
    (decide (endp > tok.start) && decide (endp ≤ tok.endPos)) ||
    (decide (start ≤ tok.start) && decide (endp ≥ tok.endPos))

/-- `parseHeaders`. -/
def headerTokens (s : List Char) : List MarkdownToken :=
  (scanAll (headerMatchAt s) s.length).flatMap fun m =>
    let mk := slice s m.idx (m.idx + m.marker)
    let tx := slice s (m.idx + m.marker + m.sep) (m.idx + m.marker + m.sep + m.text)
    [⟨"header-marker", m.idx, m.idx + m.marker, mk, mk⟩,
     ⟨"header", m.idx + m.marker + 1, m.idx + m.marker + m.sep + m.text, tx, tx⟩]

/-- `parseCodeBlocks`. -/
def codeBlockTokens (s : List Char) : List MarkdownToken :=
  (scanAll (codeBlockMatchAt s) s.length).flatMap fun m =>
    let full := slice s m.idx (m.idx + m.len)
    [⟨"code", m.idx, m.idx + m.len, full, full⟩]

/-- `parseInlineCode`. -/
def inlineCodeTokens (s : List Char) : List MarkdownToken :=
  (scanAll (inlineCodeMatchAt s) s.length).flatMap fun m =>
    let mk := slice s m.idx (m.idx + m.marker)
    let code := slice s (m.idx + m.marker) (m.idx + m.marker + m.code)
    [⟨"code-marker", m.idx, m.idx + m.marker, mk, mk⟩,
     ⟨"code", m.idx + m.marker, m.idx + m.marker + m.code, code, code⟩,
     ⟨"code-marker", m.idx + m.marker + m.code, m.idx + m.marker + m.code + m.marker,
       mk, mk⟩]

/-- `parseLinks`.  The url token start is computed, as in the source, from
`indexOf('(')` over the whole match. -/
def linkTokens (s : List Char) : List MarkdownToken :=
  (scanAll (linkMatchAt s) s.length).flatMap fun m =>
    let endP := m.idx + m.tlen + m.ulen + 4
    let full := slice s m.idx endP
    let tx := slice s (m.idx + 1) (m.idx + 1 + m.tlen)
    let url := slice s (m.idx + 3 + m.tlen) (m.idx + 3 + m.tlen + m.ulen)
    let urlStart := m.idx + runLen (fun c => !(c == '(')) s m.idx + 1
    [⟨"link", m.idx, endP, full, full⟩,
     ⟨"link-text", m.idx + 1, m.idx + 1 + m.tlen, tx, tx⟩,
     ⟨"link-url", urlStart, urlStart + m.ulen, url, url⟩]

/-- `parseImages`. -/
def imageTokens (s : List Char) : List MarkdownToken :=
  (scanAll (imageMatchAt s) s.length).flatMap fun m =>
    let endP := m.idx + m.tlen + m.ulen + 5
    let full := slice s m.idx endP
    let alt := slice s (m.idx + 2) (m.idx + 2 + m.tlen)
    let url := slice s (m.idx + 4 + m.tlen) (m.idx + 4 + m.tlen + m.ulen)
    let urlStart := m.idx + runLen (fun c => !(c == '(')) s m.idx + 1
    [⟨"image", m.idx, endP, full, full⟩,
     ⟨"image-alt", m.idx + 2, m.idx + 2 + m.tlen, alt, alt⟩,
     ⟨"image-url", urlStart, urlStart + m.ulen, url, url⟩]

/-- `parseBold` (with the `isInsideToken` pre-check against the tokens
accumulated by earlier passes). -/
def boldTokens (s : List Char) (toks : List MarkdownToken) : List MarkdownToken :=
  (scanAll (boldMatchAt s) s.length).flatMap fun m =>
    if isInsideToken toks m.idx (m.idx + m.clen + 4) then []
    else
      let mk := slice s m.idx (m.idx + 2)
      let tx := slice s (m.idx + 2) (m.idx + 2 + m.clen)
      [⟨"bold-marker", m.idx, m.idx + 2, mk, mk⟩,
       ⟨"bold", m.idx + 2, m.idx + 2 + m.clen, tx, tx⟩,
       ⟨"bold-marker", m.idx + 2 + m.clen, m.idx + m.clen + 4, mk, mk⟩]

/-- `parseItalic` (same `isInsideToken` pre-check). -/
def italicTokens (s : List Char) (toks : List MarkdownToken) : List MarkdownToken :=
  (scanAll (italicMatchAt s) s.length).flatMap fun m =>
    if isInsideToken toks m.idx (m.idx + m.clen + 2) then []
    else
      let mk := slice s m.idx (m.idx + 1)
      let tx := slice s (m.idx + 1) (m.idx + 1 + m.clen)
      [⟨"italic-marker", m.idx, m.idx + 1, mk, mk⟩,
       ⟨"italic", m.idx + 1, m.idx + 1 + m.clen, tx, tx⟩,
       ⟨"italic-marker", m.idx + 1 + m.clen, m.idx + m.clen + 2, mk, mk⟩]

/-- `parseStrikethrough`. -/
def strikeTokens (s : List Char) : List MarkdownToken :=
  (scanAll (strikeMatchAt s) s.length).flatMap fun m =>
    let mk := slice s m.idx (m.idx + 2)
    let tx := slice s (m.idx + 2) (m.idx + 2 + m.clen)
    [⟨"strikethrough-marker", m.idx, m.idx + 2, mk, mk⟩,
     ⟨"strikethrough", m.idx + 2, m.idx + 2 + m.clen, tx, tx⟩,
     ⟨"strikethrough-marker", m.idx + 2 + m.clen, m.idx + m.clen + 4, mk, mk⟩]

/-- `parseInlineElements`: the inline-only passes run by the recursive
list-item parser (bold, italic, inline code, links, images, strikethrough;
the italic pass sees the bold tokens through `isInsideToken`). -/
def parseInline (txt : List Char) : List MarkdownToken :=
  let b := boldTokens txt []
  b ++ italicTokens txt b ++ inlineCodeTokens txt ++ linkTokens txt ++
    imageTokens txt ++ strikeTokens txt

/-- Shift a token by `off` (the `parseMarkdownInText` offset adjustment). -/
def shiftTok (off : Nat) (t : MarkdownToken) : MarkdownToken :=
  { t with start := t.start + off, endPos := t.endPos + off }

/-- `parseRegularListItem` over the unordered-list matches. -/
def uListTokens (s : List Char) : List MarkdownToken :=
  (scanAll (uListMatchAt s) s.length).flatMap fun m =>
    let markerStart := m.idx + m.ind
    let mk := slice s markerStart (markerStart + 1)
    let textStart := markerStart + 1 + 1
    let item := slice s (m.idx + m.ind + 1 + m.sep) (m.idx + m.ind + 1 + m.sep + m.text)
    ⟨"list-marker", markerStart, markerStart + 1, mk, mk⟩ ::
      (parseInline item).map (shiftTok textStart)

/-- `parseRegularListItem` over the ordered-list matches. -/
def oListTokens (s : List Char) : List MarkdownToken :=
  (scanAll (oListMatchAt s) s.length).flatMap fun m =>
    let markerStart := m.idx + m.ind
    let mk := slice s markerStart (markerStart + m.dig + 1)
    let textStart := markerStart + m.dig + 1 + 1
    let item := slice s (m.idx + m.ind + m.dig + 1 + m.sep)
      (m.idx + m.ind + m.dig + 1 + m.sep + m.text)
    ⟨"list-marker", markerStart, markerStart + m.dig + 1, mk, mk⟩ ::
      (parseInline item).map (shiftTok textStart)

/-- `parseTaskListItem` over the task-list matches. -/
def taskTokens (s : List Char) : List MarkdownToken :=
  (scanAll (taskMatchAt s) s.length).flatMap fun m =>
    let lms := m.idx + m.ind
    let mk := slice s lms (lms + 1)
    let q := m.idx + m.ind + 1 + m.sep1
    let cb := slice s q (q + 3)
    let checkboxStart := lms + 1 + 1
    let textStart := checkboxStart + 3 + 1
    let item := slice s (q + 3 + m.sep2) (q + 3 + m.sep2 + m.text)
    ⟨"list-marker", lms, lms + 1, mk, mk⟩ ::
      ⟨"list-marker", checkboxStart, checkboxStart + 3, cb, cb⟩ ::
      (parseInline item).map (shiftTok textStart)

/-- `parseLists`: unordered, ordered, then task lists. -/
def listTokens (s : List Char) : List MarkdownToken :=
  uListTokens s ++ oListTokens s ++ taskTokens s

/-- `parseBlockquotes`. -/
def bquoteTokens (s : List Char) : List MarkdownToken :=
  (scanAll (bquoteMatchAt s) s.length).flatMap fun m =>
    let markerStart := m.idx + m.ind
    let mk := slice s markerStart (markerStart + m.marks)
    let tx := slice s (m.idx + m.ind + m.marks + m.sep)
      (m.idx + m.ind + m.marks + m.sep + m.text)
    let mkTok : MarkdownToken := ⟨"blockquote-marker", markerStart,
      markerStart + m.marks, mk, mk⟩
    if (trimJs tx).isEmpty then [mkTok]
    else
      [mkTok,
       ⟨"blockquote", markerStart + m.marks + 1,
         m.idx + m.ind + m.marks + m.sep + m.text, tx, tx⟩]

/-- `parseHorizontalRules`. -/
def hrTokens (s : List Char) : List MarkdownToken :=
  (scanAll (hrMatchAt s) s.length).flatMap fun m =>
    let full := slice s m.idx (m.idx + m.len)
    [⟨"hr", m.idx, m.idx + m.len, full, full⟩]

/-- `parseTables`. -/
def tableTokens (s : List Char) : List MarkdownToken :=
  (scanAll (tableMatchAt s) s.length).flatMap fun m =>
    let full := slice s m.idx (m.idx + m.len)
    [⟨"table", m.idx, m.idx + m.len, full, full⟩]

/-- `MarkdownParser.parse` (= the `parseMarkdown` utility): run the passes in
source order, accumulating tokens (the bold and italic passes consult the
accumulated list), then stable-sort by start position. -/
def parseMarkdown (s : List Char) : List MarkdownToken :=
  let a4 := headerTokens s ++ codeBlockTokens s ++ inlineCodeTokens s ++
    linkTokens s ++ imageTokens s
  let a5 := a4 ++ listTokens s
  let a6 := a5 ++ boldTokens s a5
  let a7 := a6 ++ italicTokens s a6
  let a8 := a7 ++ strikeTokens s ++ bquoteTokens s ++ hrTokens s ++ tableTokens s
  stableSort (fun a b => Nat.blt a.start b.start) a8

/-! ## filterOverlappingTokens (SyntaxHighlightedEditor.tsx) -/
/-- The JS overlap test `!(token.end <= existing.start || token.start >= existing.end)`. -/
def overlapsB (t e : MarkdownToken) : Bool :=
  !(decide (t.endPos ≤ e.start) || decide (t.start ≥ e.endPos))

/-- The greedy keep loop. -/
def filterKeep : List MarkdownToken → List MarkdownToken → List MarkdownToken
  | [], kept => kept
  | t :: rest, kept =>
    if kept.any (overlapsB t) then filterKeep rest kept
    else filterKeep rest (kept ++ [t])

/-- `filterOverlappingTokens`: sort by `(start, length)` ascending, keep each
token only if it overlaps no already-kept token, then re-sort by start. -/
def filterOverlappingTokens (tokens : List MarkdownToken) : List MarkdownToken :=
  let sorted := stableSort (fun a b =>
    Nat.blt a.start b.start ||
      (a.start == b.start && Nat.blt (a.endPos - a.start) (b.endPos - b.start))) tokens
  stableSort (fun a b => Nat.blt a.start b.start) (filterKeep sorted [])

/-! ## validateMarkdown (markdownParser.ts) -/
/-- `validateMarkdown`: parse, then report advisory issues. -/
def validateMarkdown (content : List Char) : List String :=
  let tokens := parseMarkdown content
  let boldMarkers := tokens.filter (fun t => t.type == "bold-marker")
  let italicMarkers := tokens.filter (fun t => t.type == "italic-marker")
  let codeMarkers := tokens.filter (fun t => t.type == "code-marker")
  (if boldMarkers.length % 2 ≠ 0 then ["Unmatched bold markers (**) detected"] else []) ++
  (if italicMarkers.length % 2 ≠ 0 then ["Unmatched italic markers (*) detected"] else []) ++
  (if codeMarkers.length % 2 ≠ 0 then ["Unmatched code markers (`) detected"] else []) ++
  ((tokens.filter (fun t => t.type == "link-text")).filter
      (fun l => (trimJs l.content).isEmpty)).map
    (fun _ => "Empty link text detected")

/-! ## Per-pass bounds and slice form of the emitted tokens -/
/-- The three claims proved per token: ordered span, span within the source,
content an infix of the source. -/
def TokOk (s : List Char) (t : MarkdownToken) : Prop :=
  t.start ≤ t.endPos ∧ t.endPos ≤ s.length ∧ t.content <:+: s

/-! ## Disjointness of the filtered tokens -/
/-- The `[start, end)` ranges of two tokens share no position. -/
def rangesDisjoint (a b : MarkdownToken) : Prop :=
  ∀ i : Nat, ¬(a.start ≤ i ∧ i < a.endPos ∧ b.start ≤ i ∧ i < b.endPos)

/-! ## Claim C8 -/
/-- Count of non-overlapping `dd` delimiter occurrences. -/
def countDoubles (d : Char) : List Char → Nat
  | c1 :: c2 :: rest =>
    if c1 == d && c2 == d then 1 + countDoubles d rest
    else countDoubles d (c2 :: rest)
  | _ => 0

/-! ## Claim C10 -/
/-- Total of line lengths plus one separator each. -/
def sumLens (lines : List (List Char)) : Nat :=
  (lines.map (fun l => l.length + 1)).sum

/-! ## Claim C2 -/
/-- The worked example document of the section-resolution claim. -/
def exDocC2 : List Char := strToL "# A\npara1\n## B\npara2"

/-- One step of the fence flag of `extractMarkdownHeaders`: entering records
the fence character, and only a line starting with three of *that same*
character exits. -/
def fenceStep (fence : Option Char) (line : List Char) : Option Char :=
  match fenceRun (trimJs line) with
  | some fc =>
    match fence with
    | none => some fc
    | some pc => if startsWithAt (trimJs line) [pc, pc, pc] 0 then none else some pc
  | none => fence

/-- The fence state *before* each line, starting from `fence`. -/
def statesFrom (fence : Option Char) : List (List Char) → List (Option Char)
  | [] => []
  | line :: rest => fence :: statesFrom (fenceStep fence line) rest

/-- The header (if any) a single line contributes when the fence flag is
clear: not itself a fence line, not indented code, and matching the header
pattern with a non-all-backtick text. -/
def lineHeaderOutside (line : List Char) : Option (List Char) :=
  if (fenceRun (trimJs line)).isSome then none
  else if indentMatch line then none
  else
    (lineHeaderMatch (trimJs line)).bind (fun t =>
      if !allBackticks (trimJs t) && !isInsideInlineCode line 0 then some (trimJs t)
      else none)

/-! ## Theorems -/

/-! ### Facts about `slugify` output -/
theorem toNat_ofNat_valid {n : Nat} (h : n < 0xD800) : (Char.ofNat n).toNat = n := by
  unfold Char.ofNat
  rw [dif_pos (Or.inl h)]
  rfl

theorem collapseWs_chars : ∀ (l : List Char) (b : Bool) (c : Char),
    c ∈ collapseWs l b → c = ' ' ∨ c ∈ l := by
  intro l
  induction l with
  | nil => intro b c h; simp [collapseWs] at h
  | cons d rest ih =>
    intro b c h
    simp only [collapseWs] at h
    by_cases hd : isJsWs d
    · rw [if_pos hd] at h
      cases b with
      | true =>
        simp only [if_pos rfl] at h
        rcases ih true c h with h' | h' <;> simp [h']
      | false =>
        simp only [Bool.false_eq_true, if_false, List.mem_cons] at h
        rcases h with h | h
        · exact Or.inl h
        · rcases ih true c h with h' | h' <;> simp [h']
    · rw [if_neg hd] at h
      rcases List.mem_cons.1 h with h | h
      · simp [h]
      · rcases ih false c h with h' | h' <;> simp [h']

theorem trimJs_sublist (s : List Char) : (trimJs s).Sublist s := by
  unfold trimJs
  have h1 : ((s.dropWhile isJsWs).reverse.dropWhile isJsWs).Sublist
      (s.dropWhile isJsWs).reverse := List.dropWhile_sublist _
  have h2 := h1.reverse
  rw [List.reverse_reverse] at h2
  exact h2.trans (List.dropWhile_sublist _)

theorem mem_trimJs {s : List Char} {c : Char} (h : c ∈ trimJs s) : c ∈ s :=
  (trimJs_sublist s).subset h

theorem toLower_alnum {c : Char} (h : isAsciiAlnum c = true) :
    isLowerAlnum c.toLower = true := by
  unfold isAsciiAlnum at h
  simp only [Bool.or_eq_true, Bool.and_eq_true, decide_eq_true_eq] at h
  unfold Char.toLower isLowerAlnum
  by_cases hcap : 65 ≤ c.toNat ∧ c.toNat ≤ 90
  · rw [if_pos hcap]
    have hv : (Char.ofNat (c.toNat + 32)).toNat = c.toNat + 32 :=
      toNat_ofNat_valid (by omega)
    simp only [Bool.or_eq_true, Bool.and_eq_true, decide_eq_true_eq, hv]
    omega
  · rw [if_neg hcap]
    simp only [Bool.or_eq_true, Bool.and_eq_true, decide_eq_true_eq]
    omega

/-- Every character of a slug is a lowercase alphanumeric or a hyphen. -/
theorem slugify_chars {text : List Char} {c : Char} (h : c ∈ slugify text) :
    isLowerAlnum c = true ∨ c = '-' := by
  unfold slugify at h
  simp only [List.mem_map] at h
  obtain ⟨d, hd, hdc⟩ := h
  obtain ⟨e, he, hed⟩ := hd
  have he' : e ∈ collapseWs (text.filter (fun c => isAsciiAlnum c || isJsWs c)) false :=
    mem_trimJs he
  subst hdc
  by_cases hws : isJsWs e
  · rw [← hed, if_pos hws]
    decide
  · have halnum : isAsciiAlnum e = true := by
      rcases collapseWs_chars _ _ _ he' with h' | h'
      · exact absurd (by subst h'; decide) hws
      · have := List.of_mem_filter h'
        simp only [Bool.or_eq_true] at this
        rcases this with h'' | h''
        · exact h''
        · exact absurd h'' hws
    rw [← hed, if_neg hws]
    exact Or.inl (toLower_alnum halnum)

theorem collapseWs_of_no_ws {l : List Char} (h : ∀ c ∈ l, isJsWs c = false) :
    ∀ b, collapseWs l b = l := by
  induction l with
  | nil => intro b; rfl
  | cons c rest ih =>
    intro b
    have hc := h c (by simp)
    simp only [collapseWs, hc, Bool.false_eq_true, if_false]
    rw [ih (fun d hd => h d (by simp [hd])) false]

theorem dropWhile_of_no {l : List Char} {p : Char → Bool}
    (h : ∀ c ∈ l, p c = false) : l.dropWhile p = l := by
  cases l with
  | nil => rfl
  | cons c rest => simp [List.dropWhile, h c (by simp)]

theorem trimJs_of_no_ws {l : List Char} (h : ∀ c ∈ l, isJsWs c = false) :
    trimJs l = l := by
  unfold trimJs
  rw [dropWhile_of_no h, dropWhile_of_no (by intro c hc; exact h c (by simpa using hc))]
  simp

theorem lowerAlnum_not_ws {c : Char} (h : isLowerAlnum c = true) : isJsWs c = false := by
  unfold isLowerAlnum at h
  simp only [Bool.or_eq_true, Bool.and_eq_true, decide_eq_true_eq] at h
  rw [← Bool.not_eq_true]
  intro hws
  unfold isJsWs at hws
  simp only [Bool.or_eq_true, Bool.and_eq_true, decide_eq_true_eq] at hws
  omega

/-- `slugify` on a string made of lowercase alphanumerics and hyphens just
deletes the hyphens. -/
theorem slugify_of_slug (L : List Char)
    (hmem : ∀ c ∈ L, isLowerAlnum c = true ∨ c = '-') :
    slugify L = L.filter (fun c => c != '-') := by
  unfold slugify
  have hfilter :
      L.filter (fun c => isAsciiAlnum c || isJsWs c) =
      L.filter (fun c => c != '-') := by
    apply List.filter_congr
    intro c hc
    rcases hmem c hc with h' | h'
    · have h1 : isAsciiAlnum c = true := by
        unfold isLowerAlnum at h'
        unfold isAsciiAlnum
        simp only [Bool.or_eq_true, Bool.and_eq_true, decide_eq_true_eq] at h' ⊢
        omega
      have h2 : (c != '-') = true := by
        unfold isLowerAlnum at h'
        simp only [Bool.or_eq_true, Bool.and_eq_true, decide_eq_true_eq] at h'
        simp only [bne_iff_ne, ne_eq]
        intro hcc
        have hcn := congrArg Char.toNat hcc
        have h45 : ('-').toNat = 45 := by decide
        rw [h45] at hcn
        omega
      simp [h1, h2]
    · subst h'
      decide
  rw [hfilter]
  have hLmem : ∀ c ∈ L.filter (fun c => c != '-'), isLowerAlnum c = true := by
    intro c hc
    have h1 := List.mem_of_mem_filter hc
    have h2 := List.of_mem_filter hc
    rcases hmem c h1 with h' | h'
    · exact h'
    · subst h'; simp at h2
  have hnws : ∀ c ∈ L.filter (fun c => c != '-'), isJsWs c = false :=
    fun c hc => lowerAlnum_not_ws (hLmem c hc)
  rw [collapseWs_of_no_ws hnws false, trimJs_of_no_ws hnws]
  have hmap1 :
      (L.filter (fun c => c != '-')).map (fun c => if isJsWs c then '-' else c) =
      L.filter (fun c => c != '-') := by
    rw [List.map_congr_left (g := id) ?_, List.map_id]
    intro c hc
    simp [hnws c hc]
  rw [hmap1]
  rw [List.map_congr_left (g := id) ?_, List.map_id]
  intro c hc
  have hla := hLmem c hc
  unfold isLowerAlnum at hla
  simp only [Bool.or_eq_true, Bool.and_eq_true, decide_eq_true_eq] at hla
  unfold Char.toLower
  rw [if_neg (by omega)]
  rfl

/-- Applying `slugify` to a slug deletes the hyphens the first application
introduced. -/
theorem slugify_slugify (text : List Char) :
    slugify (slugify text) = (slugify text).filter (fun c => c != '-') :=
  slugify_of_slug _ (fun _ h => slugify_chars h)

theorem natToDecAux_eq : ∀ (fuel n : Nat) (acc : List Char), n < fuel →
    natToDecAux fuel n acc = natDigits n ++ acc := by
  intro fuel
  induction fuel with
  | zero => intro n acc h; omega
  | succ fuel ih =>
    intro n acc h
    rw [natToDecAux]
    by_cases h10 : n < 10
    · rw [if_pos h10, natDigits, if_pos h10]
      rfl
    · rw [if_neg h10, natDigits.eq_def, if_neg h10]
      rw [ih (n / 10) _ (by omega)]
      simp

theorem natToDec_eq (n : Nat) : natToDec n = natDigits n := by
  rw [natToDec, natToDecAux_eq _ _ _ (by omega)]
  simp

theorem natDigits_foldl (n : Nat) : ∀ a : Nat,
    (natDigits n).foldl (fun a c => a * 10 + (c.toNat - 48)) a =
      a * 10 ^ (natDigits n).length + n := by
  induction n using Nat.strong_induction_on with
  | _ n ih =>
    intro a
    by_cases h10 : n < 10
    · rw [natDigits, if_pos h10]
      simp only [List.foldl_cons, List.foldl_nil, List.length_cons, List.length_nil]
      rw [toNat_ofNat_valid (by omega)]
      have : n % 10 = n := Nat.mod_eq_of_lt h10
      simp [this]
    · rw [natDigits.eq_def, if_neg h10]
      rw [List.foldl_append, ih (n / 10) (Nat.div_lt_self (by omega) (by omega)) a]
      simp only [List.foldl_cons, List.foldl_nil, List.length_append, List.length_cons,
        List.length_nil]
      rw [toNat_ofNat_valid (by omega)]
      have h1 : Char.toNat (Char.ofNat (48 + n % 10)) = 48 + n % 10 :=
        toNat_ofNat_valid (by omega)
      have h2 : 48 + n % 10 - 48 = n % 10 := by omega
      rw [pow_succ]
      have := Nat.div_add_mod n 10
      ring_nf
      omega

theorem decVal_natDigits (n : Nat) : decVal (natDigits n) = n := by
  rw [decVal, natDigits_foldl n 0]
  simp

theorem natToDec_injective {n m : Nat} (h : natToDec n = natToDec m) : n = m := by
  rw [natToDec_eq, natToDec_eq] at h
  have := congrArg decVal h
  rwa [decVal_natDigits, decVal_natDigits] at this

/-! ## Generic lemmas about runs, slices and scans -/
theorem slice_infix (s : List Char) (a b : Nat) : slice s a b <:+: s := by
  unfold slice
  have h1 : ((s.drop a).take (b - a)) <+: s.drop a := List.take_prefix _ _
  have h2 : s.drop a <:+ s := List.drop_suffix _ _
  exact h1.isInfix.trans h2.isInfix

theorem slice_length (s : List Char) (a b : Nat) :
    (slice s a b).length = min (b - a) (s.length - a) := by
  unfold slice
  simp [List.length_take, List.length_drop]

theorem runLen_le (p : Char → Bool) (s : List Char) (i : Nat) :
    runLen p s i ≤ s.length - i := by
  unfold runLen
  calc ((s.drop i).takeWhile p).length ≤ (s.drop i).length :=
        (List.takeWhile_sublist _).length_le
    _ = s.length - i := List.length_drop _ _

theorem charAt_lt {s : List Char} {i : Nat} {c : Char} (h : charAt s i = some c) :
    i < s.length := by
  unfold charAt at h
  exact (List.getElem?_eq_some_iff.mp h).1

theorem charAt_of_lt {s : List Char} {i : Nat} (h : i < s.length) :
    charAt s i = some s[i] := by
  unfold charAt
  exact List.getElem?_eq_some_iff.mpr ⟨h, rfl⟩

/-- The element a `takeWhile` prefix stops at fails the predicate. -/
theorem takeWhile_stop {p : Char → Bool} : ∀ {l : List Char} {c : Char},
    l[(l.takeWhile p).length]? = some c → p c = false := by
  intro l
  induction l with
  | nil => intro c h; simp at h
  | cons x xs ih =>
    intro c h
    by_cases hx : p x
    · rw [List.takeWhile_cons_of_pos hx] at h
      simp only [List.length_cons, List.getElem?_cons_succ] at h
      exact ih h
    · rw [List.takeWhile_cons_of_neg hx] at h
      simp only [List.length_nil, List.getElem?_cons_zero, Option.some.injEq] at h
      subst h
      simpa using hx

/-- Elements within a `takeWhile` prefix satisfy the predicate. -/
theorem takeWhile_within {p : Char → Bool} : ∀ {l : List Char} {j : Nat} {c : Char},
    j < (l.takeWhile p).length → l[j]? = some c → p c = true := by
  intro l
  induction l with
  | nil => intro j c hj h; simp at h
  | cons x xs ih =>
    intro j c hj h
    by_cases hx : p x
    · rw [List.takeWhile_cons_of_pos hx] at hj
      cases j with
      | zero =>
        simp only [List.getElem?_cons_zero, Option.some.injEq] at h
        subst h; exact hx
      | succ j =>
        simp only [List.getElem?_cons_succ] at h
        exact ih (by simpa using hj) h
    · rw [List.takeWhile_cons_of_neg hx] at hj
      simp at hj

/-- The character the run stops at does not satisfy `p`. -/
theorem runLen_stop {p : Char → Bool} {s : List Char} {i : Nat} {c : Char}
    (h : charAt s (i + runLen p s i) = some c) : p c = false := by
  unfold runLen at *
  unfold charAt at h
  have hdrop : (s.drop i)[((s.drop i).takeWhile p).length]? = some c := by
    rw [List.getElem?_drop]
    exact h
  exact takeWhile_stop hdrop

/-- A run is positive when it starts on a satisfying character. -/
theorem runLen_pos {p : Char → Bool} {s : List Char} {i : Nat} {c : Char}
    (h : charAt s i = some c) (hp : p c = true) : 1 ≤ runLen p s i := by
  unfold runLen
  unfold charAt at h
  have hdrop : (s.drop i)[0]? = some c := by
    rw [List.getElem?_drop]
    simpa using h
  cases hd : s.drop i with
  | nil => rw [hd] at hdrop; simp at hdrop
  | cons x xs =>
    rw [hd] at hdrop
    simp only [List.getElem?_cons_zero, Option.some.injEq] at hdrop
    subst hdrop
    simp [List.takeWhile, hp]

/-- A run cannot pass a failing character. -/
theorem runLen_le_of_stop {p : Char → Bool} {s : List Char} {i j : Nat} {c : Char}
    (h : charAt s (i + j) = some c) (hp : p c = false) : runLen p s i ≤ j := by
  by_contra hgt
  push_neg at hgt
  unfold runLen at hgt
  unfold charAt at h
  have hj : (s.drop i)[j]? = some c := by
    rw [List.getElem?_drop]; exact h
  have := takeWhile_within hgt hj
  simp [this] at hp

/-- Characters inside a run satisfy `p`. -/
theorem runLen_within {p : Char → Bool} {s : List Char} {i j : Nat} {c : Char}
    (hj : j < runLen p s i) (h : charAt s (i + j) = some c) : p c = true := by
  unfold runLen at hj
  unfold charAt at h
  have hj' : (s.drop i)[j]? = some c := by
    rw [List.getElem?_drop]; exact h
  exact takeWhile_within hj hj'

/-! ## Inversion lemmas for the matchers -/
theorem lineTerm_isWs {c : Char} (h : isLineTerm c = true) : isJsWs c = true := by
  unfold isLineTerm at h
  unfold isJsWs
  simp only [Bool.or_eq_true, Bool.and_eq_true, decide_eq_true_eq] at h ⊢
  omega

theorem not_ws_not_lineTerm {c : Char} (h : isJsWs c = false) : isLineTerm c = false := by
  cases hl : isLineTerm c with
  | false => rfl
  | true => rw [lineTerm_isWs hl] at h; simp at h

theorem mem_scanAllAux {α : Type} {f : Nat → Option (Nat × α)} :
    ∀ {fuel i : Nat} {a : α}, a ∈ scanAllAux f fuel i → ∃ j e, f j = some (e, a) := by
  intro fuel
  induction fuel with
  | zero => intro i a h; simp [scanAllAux] at h
  | succ fuel ih =>
    intro i a h
    rw [scanAllAux] at h
    rcases hf : f i with - | ⟨e, b⟩
    · rw [hf] at h
      exact ih h
    · rw [hf] at h
      rcases List.mem_cons.1 h with h | h
      · subst h; exact ⟨i, e, hf⟩
      · exact ih h

theorem mem_scanAll {α : Type} {f : Nat → Option (Nat × α)} {n : Nat} {a : α}
    (h : a ∈ scanAll f n) : ∃ j e, f j = some (e, a) :=
  mem_scanAllAux h

theorem startsWithAt_spec {s pat : List Char} {i : Nat}
    (h : startsWithAt s pat i = true) :
    pat.length ≤ s.length - i ∧ (s.drop i).take pat.length = pat := by
  unfold startsWithAt at h
  have heq : (s.drop i).take pat.length = pat := eq_of_beq h
  constructor
  · have := congrArg List.length heq
    simp only [List.length_take, List.length_drop] at this
    omega
  · exact heq

theorem tailBackM_spec {s : List Char} {j : Nat} : ∀ {m0 w t : Nat},
    tailBackM s j m0 = some (w, t) →
    1 ≤ w ∧ w ≤ m0 ∧ 1 ≤ t ∧ j + w + t ≤ s.length := by
  intro m0
  induction m0 with
  | zero => intro w t h; simp [tailBackM] at h
  | succ m ih =>
    intro w t h
    rw [tailBackM] at h
    rcases hc : charAt s (j + m + 1) with - | c
    · simp only [hc] at h
      have := ih h
      omega
    · simp only [hc] at h
      by_cases hlt : isLineTerm c
      · rw [if_pos hlt] at h
        have := ih h
        omega
      · rw [if_neg hlt] at h
        simp only [Option.some.injEq, Prod.mk.injEq] at h
        obtain ⟨hw, ht⟩ := h
        subst hw ht
        have hpos : 1 ≤ dotRun s (j + m + 1) := by
          apply runLen_pos hc
          simp [hlt]
        have hle : dotRun s (j + m + 1) ≤ s.length - (j + m + 1) := runLen_le _ _ _
        have hlt' : j + m + 1 < s.length := charAt_lt hc
        omega

theorem seqTailM_spec {s : List Char} {j w t : Nat}
    (h : seqTailM s j = some (w, t)) :
    1 ≤ w ∧ 1 ≤ t ∧ j + w + t ≤ s.length := by
  unfold seqTailM at h
  by_cases hw0 : wsRun s j = 0
  · rw [if_pos hw0] at h; simp at h
  · rw [if_neg hw0] at h
    by_cases hin : j + wsRun s j < s.length
    · rw [if_pos hin] at h
      simp only [Option.some.injEq, Prod.mk.injEq] at h
      obtain ⟨hw, ht⟩ := h
      subst hw ht
      have hc : charAt s (j + wsRun s j) = some s[j + wsRun s j] := charAt_of_lt hin
      have hstop : isJsWs s[j + wsRun s j] = false := runLen_stop (p := isJsWs) hc
      have hnl : isLineTerm s[j + wsRun s j] = false := not_ws_not_lineTerm hstop
      have hpos : 1 ≤ dotRun s (j + wsRun s j) := by
        apply runLen_pos hc
        simp [hnl]
      have hle : dotRun s (j + wsRun s j) ≤ s.length - (j + wsRun s j) := runLen_le _ _ _
      omega
    · rw [if_neg hin] at h
      have := tailBackM_spec h
      omega

theorem dollarM_le {s : List Char} {p : Nat} (h : dollarM s p = true) :
    p ≤ s.length := by
  unfold dollarM at h
  simp only [Bool.or_eq_true, beq_iff_eq] at h
  rcases h with h | h
  · omega
  · rcases hc : charAt s p with - | c
    · rw [hc] at h; simp at h
    · exact Nat.le_of_lt (charAt_lt hc)

theorem wsDollarAux_spec {s : List Char} {q : Nat} : ∀ {r m : Nat},
    wsDollarAux s q r = some m → m ≤ r ∧ q + m ≤ s.length := by
  intro r
  induction r with
  | zero =>
    intro m h
    rw [wsDollarAux] at h
    by_cases hd : dollarM s q
    · rw [if_pos hd] at h
      simp only [Option.some.injEq] at h
      subst h
      exact ⟨Nat.le_refl 0, by simpa using dollarM_le hd⟩
    · rw [if_neg hd] at h; simp at h
  | succ r ih =>
    intro m h
    rw [wsDollarAux] at h
    by_cases hd : dollarM s (q + r + 1)
    · rw [if_pos hd] at h
      simp only [Option.some.injEq] at h
      subst h
      have := dollarM_le hd
      omega
    · rw [if_neg hd] at h
      have := ih h
      omega

theorem wsDollarM_spec {s : List Char} {q m : Nat} (h : wsDollarM s q = some m) :
    q + m ≤ s.length :=
  (wsDollarAux_spec h).2

theorem cbSearch_spec {s : List Char} {d : Char} {p : Nat} : ∀ {fuel k0 k m : Nat},
    cbSearch s d p fuel k0 = some (k, m) →
    charAt s (p + k) = some '\n' ∧ startsWithAt s [d, d, d] (p + k + 1) = true ∧
      wsDollarM s (p + k + 4) = some m := by
  intro fuel
  induction fuel with
  | zero => intro k0 k m h; simp [cbSearch] at h
  | succ fuel ih =>
    intro k0 k m h
    rw [cbSearch] at h
    by_cases hc : charAt s (p + k0) == some '\n' && startsWithAt s [d, d, d] (p + k0 + 1)
    · rw [if_pos hc] at h
      rcases hw : wsDollarM s (p + k0 + 4) with - | m'
      · simp only [hw] at h
        exact ih h
      · simp only [hw] at h
        simp only [Option.some.injEq, Prod.mk.injEq] at h
        obtain ⟨hk, hm⟩ := h
        subst hk hm
        simp only [Bool.and_eq_true, beq_iff_eq] at hc
        exact ⟨hc.1, hc.2, hw⟩
    · rw [if_neg hc] at h
      exact ih h

theorem scanToDelim2_spec {d : Char} : ∀ {l : List Char} {q : Nat},
    scanToDelim2 d l = some q → q + 2 ≤ l.length := by
  intro l
  induction l with
  | nil => intro q h; simp [scanToDelim2] at h
  | cons c rest ih =>
    intro q h
    rw [scanToDelim2] at h
    by_cases h1 : c == d && rest.head? == some d
    · rw [if_pos h1] at h
      simp only [Option.some.injEq] at h
      subst h
      simp only [Bool.and_eq_true, beq_iff_eq] at h1
      have : rest ≠ [] := by
        intro he
        rw [he] at h1
        simp at h1
      have : 1 ≤ rest.length := List.length_pos.mpr this
      simp only [List.length_cons]
      omega
    · rw [if_neg h1] at h
      by_cases h2 : isLineTerm c
      · rw [if_pos h2] at h; simp at h
      · rw [if_neg h2] at h
        rcases hs : scanToDelim2 d rest with - | q'
        · rw [hs] at h; simp at h
        · rw [hs] at h
          simp at h
          subst h
          have := ih hs
          simp only [List.length_cons]
          omega

theorem italicScan_spec {d bad : Char} : ∀ {l : List Char} {q : Nat},
    italicScan d bad l = some q → q + 1 ≤ l.length := by
  intro l
  induction l with
  | nil => intro q h; simp [italicScan] at h
  | cons c rest ih =>
    intro q h
    rw [italicScan] at h
    by_cases h1 : c == d
    · rw [if_pos h1] at h
      simp only [Option.some.injEq] at h
      subst h
      simp
    · rw [if_neg h1] at h
      by_cases h2 : isLineTerm c
      · rw [if_pos h2] at h; simp at h
      · rw [if_neg h2] at h
        by_cases h3 : c == bad && rest.head? == some bad
        · rw [if_pos h3] at h; simp at h
        · rw [if_neg h3] at h
          rcases hs : italicScan d bad rest with - | q'
          · rw [hs] at h; simp at h
          · rw [hs] at h
            simp at h
            subst h
            have := ih hs
            simp only [List.length_cons]
            omega

theorem icTry_spec {s : List Char} {i r : Nat} (hr : r ≤ s.length - i) :
    ∀ {fuelm ml k : Nat}, icTry s i r fuelm = some (ml, k) →
    1 ≤ ml ∧ i + ml + k + ml ≤ s.length := by
  intro fuelm
  induction fuelm with
  | zero => intro ml k h; simp [icTry] at h
  | succ m ih =>
    intro ml k h
    rw [icTry] at h
    by_cases h1 : m + 1 < r
    · rw [if_pos h1] at h
      by_cases h2 : m + 1 ≤ r - (m + 1)
      · rw [if_pos h2] at h
        simp only [Option.some.injEq, Prod.mk.injEq] at h
        obtain ⟨hml, hk⟩ := h
        subst hml hk
        omega
      · rw [if_neg h2] at h
        exact ih h
    · rw [if_neg h1] at h
      simp only at h
      by_cases h2 : charAt s (i + (m + 1) + runLen (fun c => !(c == '`') && !isLineTerm c) s (i + (m + 1))) == some '`' &&
          m + 1 ≤ runLen (fun c => c == '`') s (i + (m + 1) + runLen (fun c => !(c == '`') && !isLineTerm c) s (i + (m + 1)))
      · rw [if_pos h2] at h
        simp only [Option.some.injEq, Prod.mk.injEq] at h
        obtain ⟨hml, hk⟩ := h
        subst hml hk
        simp only [Bool.and_eq_true, beq_iff_eq, decide_eq_true_eq] at h2
        obtain ⟨hc, hle⟩ := h2
        set p := i + (m + 1) with hp
        set K := runLen (fun c => !(c == '`') && !isLineTerm c) s p with hK
        have h3 : p + K < s.length := charAt_lt hc
        have h4 : runLen (fun c => c == '`') s (p + K) ≤ s.length - (p + K) :=
          runLen_le _ _ _
        omega
      · rw [if_neg h2] at h
        exact ih h

theorem tokOk_of_slice {s : List Char} {ty : String} {a b x y : Nat}
    (hab : a ≤ b) (hb : b ≤ s.length) :
    TokOk s ⟨ty, a, b, slice s x y, slice s x y⟩ :=
  ⟨hab, hb, slice_infix s x y⟩

theorem headerMatchAt_spec {s : List Char} {i e : Nat} {m : HeaderM}
    (h : headerMatchAt s i = some (e, m)) :
    m.idx = i ∧ 1 ≤ m.marker ∧ 1 ≤ m.sep ∧ 1 ≤ m.text ∧
      i + m.marker + m.sep + m.text ≤ s.length := by
  unfold headerMatchAt at h
  by_cases h1 : lineStartM s i
  · rw [if_pos h1] at h
    simp only at h
    by_cases h2 : 1 ≤ runLen (fun ch => ch == '#') s i &&
        runLen (fun ch => ch == '#') s i ≤ 6
    · rw [if_pos h2] at h
      rcases hst : seqTailM s (i + runLen (fun ch => ch == '#') s i) with - | ⟨w, t⟩
      · simp only [hst] at h; simp at h
      · simp only [hst, Option.some.injEq, Prod.mk.injEq] at h
        obtain ⟨he, hm⟩ := h
        subst hm
        have hsp := seqTailM_spec hst
        simp only [Bool.and_eq_true, decide_eq_true_eq] at h2
        refine ⟨rfl, ?_, ?_, ?_, ?_⟩ <;> dsimp only <;> omega
    · rw [if_neg h2] at h; simp at h
  · rw [if_neg h1] at h; simp at h

theorem headerTokens_spec {s : List Char} {t : MarkdownToken}
    (h : t ∈ headerTokens s) : TokOk s t := by
  unfold headerTokens at h
  rw [List.mem_flatMap] at h
  obtain ⟨m, hm, ht⟩ := h
  obtain ⟨j, e, hj⟩ := mem_scanAll hm
  obtain ⟨hidx, h1, h2, h3, h4⟩ := headerMatchAt_spec hj
  subst hidx
  simp only [List.mem_cons, List.mem_singleton, List.not_mem_nil, or_false] at ht
  rcases ht with ht | ht <;> subst ht
  · exact tokOk_of_slice (by omega) (by omega)
  · exact tokOk_of_slice (by omega) (by omega)

theorem codeBlockMatchAt_spec {s : List Char} {i e : Nat} {m : CodeBlockM}
    (h : codeBlockMatchAt s i = some (e, m)) :
    m.idx = i ∧ i + m.len ≤ s.length := by
  unfold codeBlockMatchAt at h
  by_cases h1 : lineStartM s i
  · rw [if_pos h1] at h
    rcases hc : charAt s i with - | c
    · rw [hc] at h
      simp at h
    · rw [hc] at h
      simp only at h
      by_cases h2 : (c == '`' || c == '~') && startsWithAt s [c, c, c] i
      · rw [if_pos h2] at h
        by_cases h3 : charAt s (i + 3 + runLen (fun ch => ch != '\n') s (i + 3)) == some '\n'
        · rw [if_pos h3] at h
          rcases hcb : cbSearch s c (i + 4 + runLen (fun ch => ch != '\n') s (i + 3))
              (s.length + 1) 0 with - | ⟨k, mm⟩
          · rw [hcb] at h
            simp at h
          · rw [hcb] at h
            simp only [Option.some.injEq, Prod.mk.injEq] at h
            obtain ⟨he, hm⟩ := h
            subst hm
            obtain ⟨-, -, hw⟩ := cbSearch_spec hcb
            have := wsDollarM_spec hw
            refine ⟨rfl, ?_⟩
            dsimp only
            omega
        · rw [if_neg h3] at h; simp at h
      · rw [if_neg h2] at h; simp at h
  · rw [if_neg h1] at h; simp at h

theorem codeBlockTokens_spec {s : List Char} {t : MarkdownToken}
    (h : t ∈ codeBlockTokens s) : TokOk s t := by
  unfold codeBlockTokens at h
  rw [List.mem_flatMap] at h
  obtain ⟨m, hm, ht⟩ := h
  obtain ⟨j, e, hj⟩ := mem_scanAll hm
  obtain ⟨hidx, h1⟩ := codeBlockMatchAt_spec hj
  subst hidx
  simp only [List.mem_singleton] at ht
  subst ht
  exact tokOk_of_slice (by omega) (by omega)

theorem inlineCodeMatchAt_spec {s : List Char} {i e : Nat} {m : InlineCodeM}
    (h : inlineCodeMatchAt s i = some (e, m)) :
    m.idx = i ∧ 1 ≤ m.marker ∧ i + m.marker + m.code + m.marker ≤ s.length := by
  unfold inlineCodeMatchAt at h
  by_cases h1 : runLen (fun c => c == '`') s i = 0
  · rw [if_pos h1] at h; simp at h
  · rw [if_neg h1] at h
    rcases hic : icTry s i (runLen (fun c => c == '`') s i)
        (runLen (fun c => c == '`') s i) with - | ⟨ml, k⟩
    · rw [hic] at h
      simp at h
    · rw [hic] at h
      simp only [Option.some.injEq, Prod.mk.injEq] at h
      obtain ⟨he, hm⟩ := h
      subst hm
      have := icTry_spec (runLen_le _ _ _) hic
      refine ⟨rfl, ?_, ?_⟩ <;> dsimp only <;> omega

theorem inlineCodeTokens_spec {s : List Char} {t : MarkdownToken}
    (h : t ∈ inlineCodeTokens s) : TokOk s t := by
  unfold inlineCodeTokens at h
  rw [List.mem_flatMap] at h
  obtain ⟨m, hm, ht⟩ := h
  obtain ⟨j, e, hj⟩ := mem_scanAll hm
  obtain ⟨hidx, h1, h2⟩ := inlineCodeMatchAt_spec hj
  subst hidx
  simp only [List.mem_cons, List.mem_singleton, List.not_mem_nil, or_false] at ht
  rcases ht with ht | ht | ht <;> subst ht
  · exact tokOk_of_slice (by omega) (by omega)
  · exact tokOk_of_slice (by omega) (by omega)
  · exact tokOk_of_slice (by omega) (by omega)

theorem linkShapeAt_spec {s : List Char} {i k u : Nat}
    (h : linkShapeAt s i = some (k, u)) :
    1 ≤ u ∧ i + 3 + k + u < s.length ∧
      charAt s (i + 2 + k) = some '(' := by
  unfold linkShapeAt at h
  by_cases h1 : charAt s i == some '['
  · rw [if_pos h1] at h
    simp only at h
    by_cases h2 : charAt s (i + 1 + runLen (fun c => !(c == ']')) s (i + 1)) == some ']' &&
        charAt s (i + 2 + runLen (fun c => !(c == ']')) s (i + 1)) == some '('
    · rw [if_pos h2] at h
      by_cases h3 : 1 ≤ runLen (fun c => !(c == ')')) s
            (i + 3 + runLen (fun c => !(c == ']')) s (i + 1)) &&
          charAt s (i + 3 + runLen (fun c => !(c == ']')) s (i + 1) +
              runLen (fun c => !(c == ')')) s
                (i + 3 + runLen (fun c => !(c == ']')) s (i + 1))) == some ')'
      · rw [if_pos h3] at h
        simp only [Option.some.injEq, Prod.mk.injEq] at h
        obtain ⟨hk, hu⟩ := h
        subst hk hu
        simp only [Bool.and_eq_true, beq_iff_eq, decide_eq_true_eq] at h2 h3
        exact ⟨h3.1, charAt_lt h3.2, h2.2⟩
      · rw [if_neg h3] at h; simp at h
    · rw [if_neg h2] at h; simp at h
  · rw [if_neg h1] at h; simp at h

theorem linkTokens_spec {s : List Char} {t : MarkdownToken}
    (h : t ∈ linkTokens s) : TokOk s t := by
  unfold linkTokens at h
  rw [List.mem_flatMap] at h
  obtain ⟨m, hm, ht⟩ := h
  obtain ⟨j, e, hj⟩ := mem_scanAll hm
  have hj' : linkShapeAt s j = some (m.tlen, m.ulen) ∧ m.idx = j := by
    unfold linkMatchAt at hj
    rcases hls : linkShapeAt s j with - | ⟨k, u⟩
    · rw [hls] at hj; simp at hj
    · rw [hls] at hj
      simp only [Option.some.injEq, Prod.mk.injEq] at hj
      obtain ⟨he, hm'⟩ := hj
      subst hm'
      exact ⟨by simp [hls], rfl⟩
  obtain ⟨hls, hidx⟩ := hj'
  subst hidx
  obtain ⟨h1, h2, h3⟩ := linkShapeAt_spec hls
  have hp : (fun c => !(c == '(')) '(' = false := by decide
  have hrun : runLen (fun c => !(c == '(')) s m.idx ≤ 2 + m.tlen := by
    have hstop := h3
    rw [show m.idx + 2 + m.tlen = m.idx + (2 + m.tlen) from by omega] at hstop
    exact runLen_le_of_stop hstop hp
  simp only [List.mem_cons, List.mem_singleton, List.not_mem_nil, or_false] at ht
  rcases ht with ht | ht | ht <;> subst ht
  · exact tokOk_of_slice (by omega) (by omega)
  · exact tokOk_of_slice (by omega) (by omega)
  · exact tokOk_of_slice (by omega) (by omega)

theorem imageTokens_spec {s : List Char} {t : MarkdownToken}
    (h : t ∈ imageTokens s) : TokOk s t := by
  unfold imageTokens at h
  rw [List.mem_flatMap] at h
  obtain ⟨m, hm, ht⟩ := h
  obtain ⟨j, e, hj⟩ := mem_scanAll hm
  have hj' : linkShapeAt s (j + 1) = some (m.tlen, m.ulen) ∧ m.idx = j := by
    unfold imageMatchAt at hj
    by_cases hb : charAt s j == some '!'
    · rw [if_pos hb] at hj
      rcases hls : linkShapeAt s (j + 1) with - | ⟨k, u⟩
      · rw [hls] at hj; simp at hj
      · rw [hls] at hj
        simp only [Option.some.injEq, Prod.mk.injEq] at hj
        obtain ⟨he, hm'⟩ := hj
        subst hm'
        exact ⟨by simp [hls], rfl⟩
    · rw [if_neg hb] at hj; simp at hj
  obtain ⟨hls, hidx⟩ := hj'
  subst hidx
  obtain ⟨h1, h2, h3⟩ := linkShapeAt_spec hls
  have hp : (fun c => !(c == '(')) '(' = false := by decide
  have hrun : runLen (fun c => !(c == '(')) s m.idx ≤ 3 + m.tlen := by
    have hstop := h3
    rw [show m.idx + 1 + 2 + m.tlen = m.idx + (3 + m.tlen) from by omega] at hstop
    exact runLen_le_of_stop hstop hp
  simp only [List.mem_cons, List.mem_singleton, List.not_mem_nil, or_false] at ht
  rcases ht with ht | ht | ht <;> subst ht
  · exact tokOk_of_slice (by omega) (by omega)
  · exact tokOk_of_slice (by omega) (by omega)
  · exact tokOk_of_slice (by omega) (by omega)

theorem emph2MatchAt_spec {s : List Char} {i e : Nat} {d : Char} {m : EmphM}
    (h : emph2MatchAt s i d = some (e, m)) :
    m.idx = i ∧ 1 ≤ m.clen ∧ i + m.clen + 4 ≤ s.length := by
  unfold emph2MatchAt at h
  by_cases h1 : startsWithAt s [d, d] i
  · rw [if_pos h1] at h
    rcases hs : scanToDelim2 d (s.drop (i + 2)) with - | q
    · rw [hs] at h; simp at h
    · rw [hs] at h
      cases q with
      | zero => simp at h
      | succ q' =>
        simp only [Option.some.injEq, Prod.mk.injEq] at h
        obtain ⟨he, hm⟩ := h
        subst hm
        have h2 := scanToDelim2_spec hs
        rw [List.length_drop] at h2
        have h3 := (startsWithAt_spec h1).1
        simp only [List.length_cons, List.length_nil] at h3
        refine ⟨rfl, ?_, ?_⟩ <;> dsimp only <;> omega
  · rw [if_neg h1] at h; simp at h

theorem boldMatchAt_spec {s : List Char} {i e : Nat} {m : EmphM}
    (h : boldMatchAt s i = some (e, m)) :
    m.idx = i ∧ 1 ≤ m.clen ∧ i + m.clen + 4 ≤ s.length := by
  unfold boldMatchAt at h
  rcases h1 : emph2MatchAt s i '*' with - | r
  · rw [h1] at h
    exact emph2MatchAt_spec h
  · rw [h1] at h
    simp only [Option.some.injEq] at h
    subst h
    exact emph2MatchAt_spec h1

theorem strikeMatchAt_spec {s : List Char} {i e : Nat} {m : EmphM}
    (h : strikeMatchAt s i = some (e, m)) :
    m.idx = i ∧ 1 ≤ m.clen ∧ i + m.clen + 4 ≤ s.length :=
  emph2MatchAt_spec h

theorem italic1MatchAt_spec {s : List Char} {i e : Nat} {d bad : Char} {m : EmphM}
    (h : italic1MatchAt s i d bad = some (e, m)) :
    m.idx = i ∧ 1 ≤ m.clen ∧ i + m.clen + 2 ≤ s.length := by
  unfold italic1MatchAt at h
  by_cases h1 : charAt s i == some d
  · rw [if_pos h1] at h
    rcases hs : italicScan d bad (s.drop (i + 1)) with - | q
    · rw [hs] at h; simp at h
    · rw [hs] at h
      cases q with
      | zero => simp at h
      | succ q' =>
        simp only [Option.some.injEq, Prod.mk.injEq] at h
        obtain ⟨he, hm⟩ := h
        subst hm
        have h2 := italicScan_spec hs
        rw [List.length_drop] at h2
        refine ⟨rfl, ?_, ?_⟩ <;> dsimp only <;> omega
  · rw [if_neg h1] at h; simp at h

theorem italicMatchAt_spec {s : List Char} {i e : Nat} {m : EmphM}
    (h : italicMatchAt s i = some (e, m)) :
    m.idx = i ∧ 1 ≤ m.clen ∧ i + m.clen + 2 ≤ s.length := by
  unfold italicMatchAt at h
  rcases h1 : italic1MatchAt s i '*' '_' with - | r
  · rw [h1] at h
    exact italic1MatchAt_spec h
  · rw [h1] at h
    simp only [Option.some.injEq] at h
    subst h
    exact italic1MatchAt_spec h1

theorem boldTokens_spec {s : List Char} {toks : List MarkdownToken}
    {t : MarkdownToken} (h : t ∈ boldTokens s toks) : TokOk s t := by
  unfold boldTokens at h
  rw [List.mem_flatMap] at h
  obtain ⟨m, hm, ht⟩ := h
  obtain ⟨j, e, hj⟩ := mem_scanAll hm
  obtain ⟨hidx, h1, h2⟩ := boldMatchAt_spec hj
  subst hidx
  by_cases hin : isInsideToken toks m.idx (m.idx + m.clen + 4)
  · rw [if_pos hin] at ht; simp at ht
  · rw [if_neg hin] at ht
    simp only [List.mem_cons, List.mem_singleton, List.not_mem_nil, or_false] at ht
    rcases ht with ht | ht | ht <;> subst ht
    · exact tokOk_of_slice (by omega) (by omega)
    · exact tokOk_of_slice (by omega) (by omega)
    · exact tokOk_of_slice (by omega) (by omega)

theorem italicTokens_spec {s : List Char} {toks : List MarkdownToken}
    {t : MarkdownToken} (h : t ∈ italicTokens s toks) : TokOk s t := by
  unfold italicTokens at h
  rw [List.mem_flatMap] at h
  obtain ⟨m, hm, ht⟩ := h
  obtain ⟨j, e, hj⟩ := mem_scanAll hm
  obtain ⟨hidx, h1, h2⟩ := italicMatchAt_spec hj
  subst hidx
  by_cases hin : isInsideToken toks m.idx (m.idx + m.clen + 2)
  · rw [if_pos hin] at ht; simp at ht
  · rw [if_neg hin] at ht
    simp only [List.mem_cons, List.mem_singleton, List.not_mem_nil, or_false] at ht
    rcases ht with ht | ht | ht <;> subst ht
    · exact tokOk_of_slice (by omega) (by omega)
    · exact tokOk_of_slice (by omega) (by omega)
    · exact tokOk_of_slice (by omega) (by omega)

theorem strikeTokens_spec {s : List Char} {t : MarkdownToken}
    (h : t ∈ strikeTokens s) : TokOk s t := by
  unfold strikeTokens at h
  rw [List.mem_flatMap] at h
  obtain ⟨m, hm, ht⟩ := h
  obtain ⟨j, e, hj⟩ := mem_scanAll hm
  obtain ⟨hidx, h1, h2⟩ := strikeMatchAt_spec hj
  subst hidx
  simp only [List.mem_cons, List.mem_singleton, List.not_mem_nil, or_false] at ht
  rcases ht with ht | ht | ht <;> subst ht
  · exact tokOk_of_slice (by omega) (by omega)
  · exact tokOk_of_slice (by omega) (by omega)
  · exact tokOk_of_slice (by omega) (by omega)

theorem bquoteMatchAt_spec {s : List Char} {i e : Nat} {m : BqM}
    (h : bquoteMatchAt s i = some (e, m)) :
    m.idx = i ∧ 1 ≤ m.marks ∧
      i + m.ind + m.marks + m.sep + m.text ≤ s.length := by
  unfold bquoteMatchAt at h
  by_cases h1 : lineStartM s i
  · rw [if_pos h1] at h
    simp only at h
    by_cases h2 : runLen (fun c => c == '>') s (i + wsRun s i) = 0
    · rw [if_pos h2] at h; simp at h
    · rw [if_neg h2] at h
      simp only [Option.some.injEq, Prod.mk.injEq] at h
      obtain ⟨he, hm⟩ := h
      subst hm
      have b1 : wsRun s i ≤ s.length - i := runLen_le _ _ _
      have b2 := runLen_le (fun c => c == '>') s (i + wsRun s i)
      have b3 := runLen_le isJsWs s (i + wsRun s i + runLen (fun c => c == '>') s (i + wsRun s i))
      have b4 := runLen_le (fun c => !isLineTerm c) s
        (i + wsRun s i + runLen (fun c => c == '>') s (i + wsRun s i) +
          wsRun s (i + wsRun s i + runLen (fun c => c == '>') s (i + wsRun s i)))
      refine ⟨rfl, ?_, ?_⟩ <;> dsimp only <;> unfold wsRun dotRun at * <;> omega
  · rw [if_neg h1] at h; simp at h

/-- `slice s a a = []`. -/
theorem slice_self (s : List Char) (a : Nat) : slice s a a = [] := by
  simp [slice]

theorem bquoteTokens_spec {s : List Char} {t : MarkdownToken}
    (h : t ∈ bquoteTokens s) : TokOk s t := by
  unfold bquoteTokens at h
  rw [List.mem_flatMap] at h
  obtain ⟨m, hm, ht⟩ := h
  obtain ⟨j, e, hj⟩ := mem_scanAll hm
  obtain ⟨hidx, h1, h2⟩ := bquoteMatchAt_spec hj
  subst hidx
  simp only at ht
  by_cases hempty : (trimJs (slice s (m.idx + m.ind + m.marks + m.sep)
      (m.idx + m.ind + m.marks + m.sep + m.text))).isEmpty
  · rw [if_pos hempty] at ht
    simp only [List.mem_singleton] at ht
    subst ht
    exact tokOk_of_slice (by omega) (by omega)
  · rw [if_neg hempty] at ht
    have htext : 1 ≤ m.text := by
      by_contra hz
      push_neg at hz
      interval_cases hmt : m.text
      rw [Nat.add_zero, slice_self] at hempty
      simp [trimJs] at hempty
    simp only [List.mem_cons, List.mem_singleton, List.not_mem_nil, or_false] at ht
    rcases ht with ht | ht <;> subst ht
    · exact tokOk_of_slice (by omega) (by omega)
    · exact tokOk_of_slice (by omega) (by omega)

theorem hrMatchAt_spec {s : List Char} {i e : Nat} {m : SpanM}
    (h : hrMatchAt s i = some (e, m)) :
    m.idx = i ∧ i + m.len ≤ s.length := by
  unfold hrMatchAt at h
  by_cases h1 : lineStartM s i
  · rw [if_pos h1] at h
    simp only at h
    by_cases h2 : 3 ≤ runLen (fun c => c == '-' || c == '*' || c == '_') s (i + wsRun s i)
    · rw [if_pos h2] at h
      rcases hw : wsDollarM s (i + wsRun s i +
          runLen (fun c => c == '-' || c == '*' || c == '_') s (i + wsRun s i)) with - | mm
      · rw [hw] at h; simp at h
      · rw [hw] at h
        simp only [Option.some.injEq, Prod.mk.injEq] at h
        obtain ⟨he, hm⟩ := h
        subst hm
        have := wsDollarM_spec hw
        refine ⟨rfl, ?_⟩
        dsimp only
        omega
    · rw [if_neg h2] at h; simp at h
  · rw [if_neg h1] at h; simp at h

theorem hrTokens_spec {s : List Char} {t : MarkdownToken}
    (h : t ∈ hrTokens s) : TokOk s t := by
  unfold hrTokens at h
  rw [List.mem_flatMap] at h
  obtain ⟨m, hm, ht⟩ := h
  obtain ⟨j, e, hj⟩ := mem_scanAll hm
  obtain ⟨hidx, h1⟩ := hrMatchAt_spec hj
  subst hidx
  simp only [List.mem_singleton] at ht
  subst ht
  exact tokOk_of_slice (by omega) (by omega)

theorem tblTry_spec {s : List Char} {p : Nat} : ∀ {fuel t mm : Nat},
    tblTry s p fuel = some (t, mm) → p + t + 1 + mm ≤ s.length := by
  intro fuel
  induction fuel with
  | zero => intro t mm h; simp [tblTry] at h
  | succ f ih =>
    intro t mm h
    rw [tblTry] at h
    by_cases h1 : charAt s (p + f + 1) == some '|'
    · rw [if_pos h1] at h
      rcases hw : wsDollarM s (p + f + 2) with - | m'
      · rw [hw] at h
        exact ih h
      · rw [hw] at h
        simp only [Option.some.injEq, Prod.mk.injEq] at h
        obtain ⟨hts, hms⟩ := h
        subst hts hms
        have := wsDollarM_spec hw
        omega
    · rw [if_neg h1] at h
      exact ih h

theorem tableMatchAt_spec {s : List Char} {i e : Nat} {m : SpanM}
    (h : tableMatchAt s i = some (e, m)) :
    m.idx = i ∧ i + m.len ≤ s.length := by
  unfold tableMatchAt at h
  by_cases h1 : lineStartM s i
  · rw [if_pos h1] at h
    simp only at h
    by_cases h2 : charAt s (i + wsRun s i) == some '|'
    · rw [if_pos h2] at h
      rcases htb : tblTry s (i + wsRun s i + 1) (dotRun s (i + wsRun s i + 1)) with - | ⟨tt, mm⟩
      · rw [htb] at h; simp at h
      · rw [htb] at h
        simp only [Option.some.injEq, Prod.mk.injEq] at h
        obtain ⟨he, hm⟩ := h
        subst hm
        have := tblTry_spec htb
        refine ⟨rfl, ?_⟩
        dsimp only
        omega
    · rw [if_neg h2] at h; simp at h
  · rw [if_neg h1] at h; simp at h

theorem tableTokens_spec {s : List Char} {t : MarkdownToken}
    (h : t ∈ tableTokens s) : TokOk s t := by
  unfold tableTokens at h
  rw [List.mem_flatMap] at h
  obtain ⟨m, hm, ht⟩ := h
  obtain ⟨j, e, hj⟩ := mem_scanAll hm
  obtain ⟨hidx, h1⟩ := tableMatchAt_spec hj
  subst hidx
  simp only [List.mem_singleton] at ht
  subst ht
  exact tokOk_of_slice (by omega) (by omega)

theorem uListMatchAt_spec {s : List Char} {i e : Nat} {m : UListM}
    (h : uListMatchAt s i = some (e, m)) :
    m.idx = i ∧ 1 ≤ m.sep ∧ 1 ≤ m.text ∧
      i + m.ind + 1 + m.sep + m.text ≤ s.length := by
  unfold uListMatchAt at h
  by_cases h1 : lineStartM s i
  · rw [if_pos h1] at h
    simp only at h
    by_cases h2 : charAt s (i + wsRun s i) == some '*' ||
        charAt s (i + wsRun s i) == some '+' || charAt s (i + wsRun s i) == some '-'
    · rw [if_pos h2] at h
      rcases hst : seqTailM s (i + wsRun s i + 1) with - | ⟨w, t⟩
      · rw [hst] at h; simp at h
      · rw [hst] at h
        simp only [Option.some.injEq, Prod.mk.injEq] at h
        obtain ⟨he, hm⟩ := h
        subst hm
        have hsp := seqTailM_spec hst
        refine ⟨rfl, ?_, ?_, ?_⟩ <;> dsimp only <;> omega
    · rw [if_neg h2] at h; simp at h
  · rw [if_neg h1] at h; simp at h

theorem oListMatchAt_spec {s : List Char} {i e : Nat} {m : OListM}
    (h : oListMatchAt s i = some (e, m)) :
    m.idx = i ∧ 1 ≤ m.sep ∧ 1 ≤ m.text ∧
      i + m.ind + m.dig + 1 + m.sep + m.text ≤ s.length := by
  unfold oListMatchAt at h
  by_cases h1 : lineStartM s i
  · rw [if_pos h1] at h
    simp only at h
    by_cases h2 : 1 ≤ runLen isDigitC s (i + wsRun s i) &&
        charAt s (i + wsRun s i + runLen isDigitC s (i + wsRun s i)) == some '.'
    · rw [if_pos h2] at h
      rcases hst : seqTailM s (i + wsRun s i + runLen isDigitC s (i + wsRun s i) + 1)
          with - | ⟨w, t⟩
      · rw [hst] at h; simp at h
      · rw [hst] at h
        simp only [Option.some.injEq, Prod.mk.injEq] at h
        obtain ⟨he, hm⟩ := h
        subst hm
        have hsp := seqTailM_spec hst
        refine ⟨rfl, ?_, ?_, ?_⟩ <;> dsimp only <;> omega
    · rw [if_neg h2] at h; simp at h
  · rw [if_neg h1] at h; simp at h

theorem taskMatchAt_spec {s : List Char} {i e : Nat} {m : TaskM}
    (h : taskMatchAt s i = some (e, m)) :
    m.idx = i ∧ 1 ≤ m.sep2 ∧ 1 ≤ m.text ∧ 1 ≤ m.sep1 ∧
      i + m.ind + 1 + m.sep1 + 3 + m.sep2 + m.text ≤ s.length := by
  unfold taskMatchAt at h
  by_cases h1 : lineStartM s i
  · rw [if_pos h1] at h
    simp only at h
    by_cases h2 : charAt s (i + wsRun s i) == some '*' ||
        charAt s (i + wsRun s i) == some '+' || charAt s (i + wsRun s i) == some '-'
    · rw [if_pos h2] at h
      by_cases h3 : 1 ≤ wsRun s (i + wsRun s i + 1) &&
          charAt s (i + wsRun s i + 1 + wsRun s (i + wsRun s i + 1)) == some '[' &&
          (charAt s (i + wsRun s i + 1 + wsRun s (i + wsRun s i + 1) + 1) == some ' ' ||
            charAt s (i + wsRun s i + 1 + wsRun s (i + wsRun s i + 1) + 1) == some 'x') &&
          charAt s (i + wsRun s i + 1 + wsRun s (i + wsRun s i + 1) + 2) == some ']'
      · rw [if_pos h3] at h
        rcases hst : seqTailM s (i + wsRun s i + 1 + wsRun s (i + wsRun s i + 1) + 3)
            with - | ⟨w2, t⟩
        · rw [hst] at h; simp at h
        · rw [hst] at h
          simp only [Option.some.injEq, Prod.mk.injEq] at h
          obtain ⟨he, hm⟩ := h
          subst hm
          have hsp := seqTailM_spec hst
          simp only [Bool.and_eq_true, decide_eq_true_eq] at h3
          refine ⟨rfl, ?_, ?_, ?_, ?_⟩ <;> dsimp only <;> omega
      · rw [if_neg h3] at h; simp at h
    · rw [if_neg h2] at h; simp at h
  · rw [if_neg h1] at h; simp at h

theorem parseInline_spec {txt : List Char} {t : MarkdownToken}
    (h : t ∈ parseInline txt) : TokOk txt t := by
  unfold parseInline at h
  simp only [List.mem_append] at h
  rcases h with ((((h | h) | h) | h) | h) | h
  · exact boldTokens_spec h
  · exact italicTokens_spec h
  · exact inlineCodeTokens_spec h
  · exact linkTokens_spec h
  · exact imageTokens_spec h
  · exact strikeTokens_spec h

theorem shifted_tokOk {s item : List Char} {t : MarkdownToken} {off a b : Nat}
    (hitem : item = slice s a b) (hok : TokOk item t)
    (hend : off + (b - a) ≤ s.length ∨ item.length + off ≤ s.length) :
    TokOk s (shiftTok off t) := by
  obtain ⟨h1, h2, h3⟩ := hok
  have hlen : item.length ≤ b - a := by
    rw [hitem, slice_length]
    omega
  have hlen2 : item.length + a ≤ s.length ∨ item.length ≤ s.length - a := by
    right
    rw [hitem, slice_length]
    omega
  refine ⟨by simp only [shiftTok]; omega, ?_, ?_⟩
  · simp only [shiftTok]
    rcases hend with hend | hend <;> omega
  · simp only [shiftTok]
    exact h3.trans (hitem ▸ slice_infix s a b)

theorem uListTokens_spec {s : List Char} {t : MarkdownToken}
    (h : t ∈ uListTokens s) : TokOk s t := by
  unfold uListTokens at h
  rw [List.mem_flatMap] at h
  obtain ⟨m, hm, ht⟩ := h
  obtain ⟨j, e, hj⟩ := mem_scanAll hm
  obtain ⟨hidx, h1, h2, h3⟩ := uListMatchAt_spec hj
  subst hidx
  simp only [List.mem_cons] at ht
  rcases ht with ht | ht
  · subst ht
    exact tokOk_of_slice (by omega) (by omega)
  · rw [List.mem_map] at ht
    obtain ⟨t', ht', hshift⟩ := ht
    subst hshift
    refine shifted_tokOk rfl (parseInline_spec ht') ?_
    left
    have : m.idx + m.ind + 1 + m.sep + m.text - (m.idx + m.ind + 1 + m.sep) ≤ m.text := by
      omega
    omega

theorem oListTokens_spec {s : List Char} {t : MarkdownToken}
    (h : t ∈ oListTokens s) : TokOk s t := by
  unfold oListTokens at h
  rw [List.mem_flatMap] at h
  obtain ⟨m, hm, ht⟩ := h
  obtain ⟨j, e, hj⟩ := mem_scanAll hm
  obtain ⟨hidx, h1, h2, h3⟩ := oListMatchAt_spec hj
  subst hidx
  simp only [List.mem_cons] at ht
  rcases ht with ht | ht
  · subst ht
    exact tokOk_of_slice (by omega) (by omega)
  · rw [List.mem_map] at ht
    obtain ⟨t', ht', hshift⟩ := ht
    subst hshift
    refine shifted_tokOk rfl (parseInline_spec ht') ?_
    left
    omega

theorem taskTokens_spec {s : List Char} {t : MarkdownToken}
    (h : t ∈ taskTokens s) : TokOk s t := by
  unfold taskTokens at h
  rw [List.mem_flatMap] at h
  obtain ⟨m, hm, ht⟩ := h
  obtain ⟨j, e, hj⟩ := mem_scanAll hm
  obtain ⟨hidx, h1, h2, h3, h4⟩ := taskMatchAt_spec hj
  subst hidx
  simp only [List.mem_cons] at ht
  rcases ht with ht | ht | ht
  · subst ht
    exact tokOk_of_slice (by omega) (by omega)
  · subst ht
    exact tokOk_of_slice (by omega) (by omega)
  · rw [List.mem_map] at ht
    obtain ⟨t', ht', hshift⟩ := ht
    subst hshift
    refine shifted_tokOk rfl (parseInline_spec ht') ?_
    left
    omega

theorem listTokens_spec {s : List Char} {t : MarkdownToken}
    (h : t ∈ listTokens s) : TokOk s t := by
  unfold listTokens at h
  simp only [List.mem_append] at h
  rcases h with (h | h) | h
  · exact uListTokens_spec h
  · exact oListTokens_spec h
  · exact taskTokens_spec h

theorem mem_stableInsert {o : Type} {lt : o → o → Bool} {x a : o} :
    ∀ {l : List o}, a ∈ stableInsert lt x l ↔ a = x ∨ a ∈ l := by
  intro l
  induction l with
  | nil => simp [stableInsert]
  | cons y ys ih =>
    rw [stableInsert]
    by_cases hy : lt y x
    · rw [if_pos hy]
      simp only [List.mem_cons, ih]
      tauto
    · rw [if_neg hy]
      simp only [List.mem_cons]

theorem mem_stableSort {o : Type} {lt : o → o → Bool} {a : o} :
    ∀ {l : List o}, a ∈ stableSort lt l ↔ a ∈ l := by
  intro l
  induction l with
  | nil => simp [stableSort]
  | cons y ys ih =>
    rw [stableSort, mem_stableInsert]
    simp only [List.mem_cons, ih]

theorem stableInsert_perm {o : Type} (lt : o → o → Bool) (x : o) :
    ∀ (l : List o), (stableInsert lt x l).Perm (x :: l) := by
  intro l
  induction l with
  | nil => simp [stableInsert]
  | cons y ys ih =>
    rw [stableInsert]
    by_cases hy : lt y x
    · rw [if_pos hy]
      exact (ih.cons y).trans (List.Perm.swap x y ys)
    · rw [if_neg hy]

theorem stableSort_perm {o : Type} (lt : o → o → Bool) :
    ∀ (l : List o), (stableSort lt l).Perm l := by
  intro l
  induction l with
  | nil => simp [stableSort]
  | cons y ys ih =>
    rw [stableSort]
    exact (stableInsert_perm lt y _).trans (ih.cons y)

/-- Every token of a full parse has an ordered span lying inside the source,
and its content occurs in the source. -/
theorem parseMarkdown_spec {s : List Char} {t : MarkdownToken}
    (h : t ∈ parseMarkdown s) : TokOk s t := by
  unfold parseMarkdown at h
  rw [mem_stableSort] at h
  simp only [List.mem_append, or_assoc] at h
  rcases h with h | h | h | h | h | h | h | h | h | h | h | h
  · exact headerTokens_spec h
  · exact codeBlockTokens_spec h
  · exact inlineCodeTokens_spec h
  · exact linkTokens_spec h
  · exact imageTokens_spec h
  · exact listTokens_spec h
  · exact boldTokens_spec h
  · exact italicTokens_spec h
  · exact strikeTokens_spec h
  · exact bquoteTokens_spec h
  · exact hrTokens_spec h
  · exact tableTokens_spec h

theorem rangesDisjoint_symm : Symmetric rangesDisjoint := by
  intro a b h i hi
  exact h i ⟨hi.2.2.1, hi.2.2.2, hi.1, hi.2.1⟩

theorem rangesDisjoint_of_overlapsB {t e : MarkdownToken}
    (h : overlapsB t e = false) : rangesDisjoint e t := by
  unfold overlapsB at h
  simp only [Bool.not_eq_false', Bool.or_eq_true, decide_eq_true_eq] at h
  intro i hi
  rcases h with h | h <;> omega

theorem filterKeep_pairwise : ∀ (rest kept : List MarkdownToken),
    kept.Pairwise rangesDisjoint →
    (filterKeep rest kept).Pairwise rangesDisjoint := by
  intro rest
  induction rest with
  | nil => intro kept hk; exact hk
  | cons t rest ih =>
    intro kept hk
    rw [filterKeep]
    by_cases hov : kept.any (overlapsB t)
    · rw [if_pos hov]
      exact ih kept hk
    · rw [if_neg hov]
      apply ih
      rw [List.pairwise_append]
      refine ⟨hk, List.pairwise_singleton _ _, ?_⟩
      intro a ha b hb
      simp only [List.mem_singleton] at hb
      subst hb
      have hfalse : overlapsB b a = false := by
        rw [Bool.eq_false_iff]
        intro htrue
        exact hov (List.any_of_mem ha htrue)
      exact rangesDisjoint_of_overlapsB hfalse

theorem filterOverlappingTokens_pairwise (tokens : List MarkdownToken) :
    (filterOverlappingTokens tokens).Pairwise rangesDisjoint := by
  unfold filterOverlappingTokens
  have h1 : (filterKeep (stableSort (fun a b =>
      Nat.blt a.start b.start ||
        (a.start == b.start && Nat.blt (a.endPos - a.start) (b.endPos - b.start))) tokens)
      []).Pairwise rangesDisjoint :=
    filterKeep_pairwise _ [] (List.Pairwise.nil)
  have hperm := stableSort_perm (fun a b => Nat.blt a.start b.start)
    (filterKeep (stableSort (fun a b =>
      Nat.blt a.start b.start ||
        (a.start == b.start && Nat.blt (a.endPos - a.start) (b.endPos - b.start))) tokens) [])
  exact (hperm.pairwise_iff (fun h => rangesDisjoint_symm h)).mpr h1

/-! ## Claims C3 and C4 -/
/--
C3, counterexample: in `"#  A"` (two spaces after the `#`) the header pass
computes the text-token start as `marker length + 1`, but the regex `\s+`
consumed two characters, so the token `[2, 4)` carries content `"A"` while
`source[2:4]` is `" A"`.
-/
theorem claimC3_counterexample :
    (⟨"header", 2, 4, strToL "A", strToL "A"⟩ : MarkdownToken) ∈
        parseMarkdown (strToL "#  A") ∧
      slice (strToL "#  A") 2 4 ≠ strToL "A" := by
  decide

/--
C3 (amended): every token produced by the tokenizer's full parse carries a
content that is a contiguous substring of the source (each regex group is a
slice of the input), though not necessarily the substring at `[start, end)` —
header text, url, checkbox, blockquote and recursively-parsed list-item
tokens can be offset when a separator is wider than one character or a `(`
occurs early in the match.
-/
theorem claimC3_theorem : ∀ (s : List Char) (t : MarkdownToken),
    t ∈ parseMarkdown s → t.content <:+: s :=
  fun _ _ h => (parseMarkdown_spec h).2.2

/-- Witness for C3 at a concrete input. -/
theorem claimC3_witness :
    (⟨"header-marker", 0, 1, strToL "#", strToL "#"⟩ : MarkdownToken) ∈
        parseMarkdown (strToL "# A") ∧
      strToL "#" <:+: strToL "# A" :=
  ⟨by decide,
   claimC3_theorem (strToL "# A")
     ⟨"header-marker", 0, 1, strToL "#", strToL "#"⟩ (by decide)⟩

/--
C4, counterexample: `"``"` (two backticks) parses as an inline-code match
with an empty code group, emitting a `code` token with `start = end = 1`, so
`start < end` fails for this token of `tokenize`.
-/
theorem claimC4_counterexample :
    (⟨"code", 1, 1, [], []⟩ : MarkdownToken) ∈ parseMarkdown (strToL "``") ∧
      ¬((1 : Nat) < 1) := by
  decide

/--
C4 (amended): every token of `tokenize(s)` satisfies
`0 ≤ start ≤ end ≤ length(s)` (with equality `start = end` possible for
empty inline-code and blockquote content groups), and after the
overlap-resolution step of `filterOverlappingTokens` no two kept tokens'
`[start, end)` ranges intersect.
-/
theorem claimC4_theorem : ∀ s : List Char,
    (∀ t ∈ parseMarkdown s, t.start ≤ t.endPos ∧ t.endPos ≤ s.length) ∧
      (filterOverlappingTokens (parseMarkdown s)).Pairwise rangesDisjoint :=
  fun _ =>
    ⟨fun _ h => ⟨(parseMarkdown_spec h).1, (parseMarkdown_spec h).2.1⟩,
     filterOverlappingTokens_pairwise _⟩

/-- Witness for C4 at a concrete input. -/
theorem claimC4_witness :
    (⟨"header-marker", 0, 1, strToL "#", strToL "#"⟩ : MarkdownToken) ∈
        parseMarkdown (strToL "# A") ∧
      ((⟨"header-marker", 0, 1, strToL "#", strToL "#"⟩ : MarkdownToken).start ≤ 1 ∧
        (1 : Nat) ≤ (strToL "# A").length) :=
  ⟨by decide,
   (claimC4_theorem (strToL "# A")).1
     ⟨"header-marker", 0, 1, strToL "#", strToL "#"⟩ (by decide)⟩

/-! ## Claim C1 -/
/--
C1, counterexample: `slugify "a b" = "a-b"` but `slugify "a-b" = "ab"`,
since the first `replace` removes hyphens; so `slugify` is not idempotent.
-/
theorem claimC1_counterexample :
    slugify (slugify (strToL "a b")) ≠ slugify (strToL "a b") := by decide

/--
C1 (amended): a second application of `slugify` deletes the hyphens the
first introduced — `slugify (slugify s)` equals `slugify s` with all `'-'`
removed, so idempotence holds exactly for inputs whose slug contains no
hyphen.
-/
theorem claimC1_theorem : ∀ text : List Char,
    slugify (slugify text) = (slugify text).filter (fun c => c != '-') ∧
      (slugify (slugify text) = slugify text ↔ ∀ c ∈ slugify text, c ≠ '-') := by
  intro text
  refine ⟨slugify_slugify text, ?_⟩
  rw [slugify_slugify text, List.filter_eq_self]
  simp only [bne_iff_ne, ne_eq]

/--
C8: the input `"**bold"` contains an odd number (one) of `**` delimiters,
yet `validateMarkdown` reports no issue: bold-marker tokens are only ever
emitted in opening/closing pairs, so the odd-count branch that would push
`"Unmatched bold markers (**) detected"` is unreachable.
-/
theorem claimC8_theorem :
    countDoubles '*' (strToL "**bold") = 1 ∧
      validateMarkdown (strToL "**bold") = [] := by decide

theorem splitNl_ne_nil : ∀ content : List Char, splitNl content ≠ [] := by
  intro content
  cases content with
  | nil => simp [splitNl]
  | cons c rest =>
    rw [splitNl]
    by_cases hc : c = '\n'
    · rw [if_pos hc]; simp
    · rw [if_neg hc]
      rcases hs : splitNl rest with - | ⟨l, ls⟩ <;> simp

theorem splitNl_sumLens : ∀ content : List Char,
    sumLens (splitNl content) = content.length + 1 := by
  intro content
  induction content with
  | nil => simp [splitNl, sumLens]
  | cons c rest ih =>
    rw [splitNl]
    by_cases hc : c = '\n'
    · rw [if_pos hc]
      simp only [sumLens, List.map_cons, List.sum_cons, List.length_nil, List.length_cons]
      rw [sumLens] at ih
      omega
    · rw [if_neg hc]
      rcases hs : splitNl rest with - | ⟨l, ls⟩
      · exact absurd hs (splitNl_ne_nil rest)
      · rw [hs, sumLens] at ih
        simp only [sumLens, List.map_cons, List.sum_cons, List.length_cons] at ih ⊢
        omega

theorem fclAux_none : ∀ (lines : List (List Char)) (i cnt pos : Nat),
    cnt + sumLens lines ≤ pos → fclAux lines i cnt pos = none := by
  intro lines
  induction lines with
  | nil => intro i cnt pos h; rfl
  | cons line rest ih =>
    intro i cnt pos h
    rw [sumLens] at h
    simp only [List.map_cons, List.sum_cons] at h
    rw [fclAux, if_neg (by omega)]
    apply ih
    rw [sumLens]
    omega

/--
C10: for a caret offset strictly beyond the content length, the
line-locating loop never breaks, `currentLine` keeps its initialisation `0`,
and resolution behaves exactly as for a caret on the first line.
-/
theorem claimC10_theorem :
    ∀ (content : List Char) (pos : Nat) (idMap : List (List Char × List Char)),
    content.length < pos →
    findCursorLine (splitNl content) pos = 0 ∧
      resolveSection content pos idMap = resolveSection content 0 idMap := by
  intro content pos idMap h
  have h0 : findCursorLine (splitNl content) pos = 0 := by
    unfold findCursorLine
    rw [fclAux_none (splitNl content) 0 0 pos (by rw [splitNl_sumLens]; omega)]
    rfl
  refine ⟨h0, ?_⟩
  simp only [resolveSection]
  rw [h0]
  have h1 : findCursorLine (splitNl content) 0 = 0 := by
    unfold findCursorLine
    rcases hs : splitNl content with - | ⟨l, ls⟩
    · exact absurd hs (splitNl_ne_nil content)
    · rw [fclAux, if_pos (by omega)]
      rfl
  rw [h1]

/-- Witness for C10 at a concrete input. -/
theorem claimC10_witness :
    (strToL "x").length < 2 ∧
      (findCursorLine (splitNl (strToL "x")) 2 = 0 ∧
        resolveSection (strToL "x") 2 [] = resolveSection (strToL "x") 0 []) :=
  ⟨by decide, claimC10_theorem (strToL "x") 2 [] (by decide)⟩

/--
C2, counterexample: a caret at offset 0 of `"# A\npara1\n## B\npara2"` does
*not* resolve to none — the backward scan starts at the caret's own line,
and line 0 is itself the header `# A`, so offset 0 resolves to its slug.
-/
theorem claimC2_counterexample :
    resolveSection exDocC2 0 (precomputeHeaderIds exDocC2) ≠ none := by decide

/--
C2 (amended): in `"# A\npara1\n## B\npara2"` a caret inside `para2`
(offsets 15–19) resolves to the slug of `"B"`, a caret inside `para1`
(offsets 4–8) resolves to the slug of `"A"`, and a caret at offset 0 — which
lies on the header line `# A` itself — resolves to the slug of `"A"`, not to
none.
-/
theorem claimC2_theorem :
    (∀ o : Nat, 15 ≤ o → o ≤ 19 →
      resolveSection exDocC2 o (precomputeHeaderIds exDocC2) = some (strToL "b")) ∧
    (∀ o : Nat, 4 ≤ o → o ≤ 8 →
      resolveSection exDocC2 o (precomputeHeaderIds exDocC2) = some (strToL "a")) ∧
    resolveSection exDocC2 0 (precomputeHeaderIds exDocC2) = some (strToL "a") := by
  refine ⟨?_, ?_, by decide⟩
  · intro o h1 h2
    interval_cases o <;> decide
  · intro o h1 h2
    interval_cases o <;> decide

/-- Witness for C2 at concrete caret offsets. -/
theorem claimC2_witness :
    ((15 : Nat) ≤ 16 ∧ (16 : Nat) ≤ 19 ∧
      resolveSection exDocC2 16 (precomputeHeaderIds exDocC2) = some (strToL "b")) ∧
    ((4 : Nat) ≤ 5 ∧ (5 : Nat) ≤ 8 ∧
      resolveSection exDocC2 5 (precomputeHeaderIds exDocC2) = some (strToL "a")) :=
  ⟨⟨by decide, by decide, claimC2_theorem.1 16 (by decide) (by decide)⟩,
   ⟨by decide, by decide, claimC2_theorem.2.1 5 (by decide) (by decide)⟩⟩

/-! ## Correctness of generateUniqueSlug -/
theorem jsSetHas_iff {s : List (List Char)} {x : List Char} :
    jsSetHas s x = true ↔ x ∈ s := by
  simp [jsSetHas]

theorem jsSetHas_false_iff {s : List (List Char)} {x : List Char} :
    jsSetHas s x = false ↔ x ∉ s := by
  rw [← Bool.not_eq_true, jsSetHas_iff]

theorem slugCand_injective {base : List Char} {k1 k2 : Nat}
    (h : slugCand base k1 = slugCand base k2) : k1 = k2 := by
  unfold slugCand at h
  have h1 := List.append_cancel_left h
  simp only [List.cons.injEq] at h1
  exact natToDec_injective h1.2

/-- The `while` search returns the least free counter at or above its start,
provided a free counter exists within the fuel. -/
theorem guFind_spec {base : List Char} {ids : List (List Char)} :
    ∀ {fuel k : Nat},
    (∃ j, j < fuel ∧ jsSetHas ids (slugCand base (k + j)) = false) →
    k ≤ guFind base ids fuel k ∧
      jsSetHas ids (slugCand base (guFind base ids fuel k)) = false ∧
      (∀ j, k ≤ j → j < guFind base ids fuel k →
        jsSetHas ids (slugCand base j) = true) := by
  intro fuel
  induction fuel with
  | zero =>
    intro k h
    obtain ⟨j, hj, -⟩ := h
    omega
  | succ fuel ih =>
    intro k h
    rw [guFind]
    by_cases hk : jsSetHas ids (slugCand base k)
    · rw [if_pos hk]
      have hex : ∃ j, j < fuel ∧ jsSetHas ids (slugCand base (k + 1 + j)) = false := by
        obtain ⟨j, hj, hfree⟩ := h
        cases j with
        | zero =>
          simp only [Nat.add_zero] at hfree
          rw [hfree] at hk
          exact absurd hk (by simp)
        | succ j' =>
          exact ⟨j', by omega, by
            have : k + 1 + j' = k + (j' + 1) := by omega
            rw [this]; exact hfree⟩
      obtain ⟨hle, hfree, hmin⟩ := ih hex
      refine ⟨by omega, hfree, ?_⟩
      intro j hj1 hj2
      by_cases hjk : j = k
      · subst hjk; exact hk
      · exact hmin j (by omega) hj2
    · rw [if_neg hk]
      exact ⟨Nat.le_refl k, by simpa using hk, fun j h1 h2 => absurd (by omega : k ≤ j ∧ j < k) (by omega)⟩

/-- Pigeonhole: among `|ids| + 1` distinct candidates, one is free. -/
theorem guFind_exists (base : List Char) (ids : List (List Char)) :
    ∃ j, j < ids.length + 1 ∧ jsSetHas ids (slugCand base (2 + j)) = false := by
  by_contra hno
  push_neg at hno
  have hall : ∀ j, j < ids.length + 1 → slugCand base (2 + j) ∈ ids := by
    intro j hj
    have := hno j hj
    rw [← jsSetHas_iff]
    cases hb : jsSetHas ids (slugCand base (2 + j))
    · exact absurd hb this
    · rfl
  set candList := (List.range (ids.length + 1)).map (fun j => slugCand base (2 + j)) with hcl
  have hnodup : candList.Nodup := by
    rw [hcl]
    apply List.Nodup.map
    · intro a b hab
      have := slugCand_injective hab
      omega
    · exact List.nodup_range _
  have hsub : candList ⊆ ids := by
    intro x hx
    rw [hcl, List.mem_map] at hx
    obtain ⟨j, hj, hfx⟩ := hx
    rw [List.mem_range] at hj
    rw [← hfx]
    exact hall j hj
  have := (hnodup.subperm hsub).length_le
  rw [hcl, List.length_map, List.length_range] at this
  omega

/-- `generateUniqueSlug` always returns a slug absent from the id set and
conses it onto the set. -/
theorem generateUniqueSlug_fresh (text : List Char) (ids : List (List Char)) :
    ∃ slug, generateUniqueSlug text ids = (slug, slug :: ids) ∧ slug ∉ ids := by
  unfold generateUniqueSlug
  simp only
  set base := (if slugify text == [] then strToL "heading" else slugify text) with hbase
  by_cases hb : jsSetHas ids base
  · rw [hb]
    simp only [Bool.not_true, Bool.false_eq_true, if_false]
    obtain ⟨hle, hfree, hmin⟩ := guFind_spec (guFind_exists base ids)
    refine ⟨_, ?_, jsSetHas_false_iff.mp hfree⟩
    have hadd : jsSetAdd ids (slugCand base (guFind base ids (ids.length + 1) 2)) =
        slugCand base (guFind base ids (ids.length + 1) 2) :: ids := by
      unfold jsSetAdd
      rw [hfree]
      simp
    rw [hadd]
  · rw [Bool.not_eq_true] at hb
    rw [hb]
    simp only [Bool.not_false, if_true]
    refine ⟨base, ?_, jsSetHas_false_iff.mp hb⟩
    have hadd : jsSetAdd ids base = base :: ids := by
      unfold jsSetAdd
      rw [hb]
      simp
    rw [hadd]

/-! ## The JS `Map` model -/
theorem noKey_mapReplace {m : List (List Char × List Char)} {k v : List Char}
    (h : ∀ p ∈ m, (p.1 == k) = false) :
    m.map (fun p => if p.1 == k then (k, v) else p) = m := by
  rw [List.map_congr_left (g := id) ?_, List.map_id]
  intro p hp
  simp [h p hp]

theorem mem_values_jsMapSet {m : List (List Char × List Char)} {k v x : List Char}
    (h : x ∈ (jsMapSet m k v).map (fun p => p.2)) :
    x = v ∨ x ∈ m.map (fun p => p.2) := by
  unfold jsMapSet at h
  split at h
  · rw [List.map_map, List.mem_map] at h
    obtain ⟨p, hp, hx⟩ := h
    simp only [Function.comp_apply] at hx
    by_cases hk : p.1 == k
    · left
      rw [if_pos hk] at hx
      exact hx.symm
    · right
      rw [List.mem_map]
      rw [if_neg hk] at hx
      exact ⟨p, hp, hx⟩
  · rw [List.map_append, List.mem_append] at h
    rcases h with h | h
    · exact Or.inr h
    · simp at h
      exact Or.inl h

theorem keys_jsMapSet (m : List (List Char × List Char)) (k v : List Char) :
    (jsMapSet m k v).map (fun p => p.1) =
      if m.any (fun p => p.1 == k) then m.map (fun p => p.1)
      else m.map (fun p => p.1) ++ [k] := by
  by_cases hc : m.any (fun p => p.1 == k)
  · rw [if_pos hc]
    unfold jsMapSet
    rw [if_pos hc, List.map_map]
    apply List.map_congr_left
    intro p hp
    simp only [Function.comp_apply]
    by_cases hk : p.1 == k
    · rw [if_pos hk]
      exact (eq_of_beq hk).symm
    · rw [if_neg hk]
  · rw [if_neg hc]
    unfold jsMapSet
    rw [if_neg hc, List.map_append]
    simp

theorem keys_nodup_jsMapSet {m : List (List Char × List Char)} {k v : List Char}
    (h : (m.map (fun p => p.1)).Nodup) :
    ((jsMapSet m k v).map (fun p => p.1)).Nodup := by
  rw [keys_jsMapSet]
  by_cases hc : m.any (fun p => p.1 == k)
  · rw [if_pos hc]; exact h
  · rw [if_neg hc]
    rw [List.nodup_append]
    refine ⟨h, List.nodup_singleton _, ?_⟩
    intro a ha hb
    simp only [List.mem_singleton] at hb
    subst hb
    rw [Bool.not_eq_true, List.any_eq_false] at hc
    rw [List.mem_map] at ha
    obtain ⟨p, hp, hpa⟩ := ha
    have := hc p hp
    rw [hpa] at this
    simp at this

theorem values_pairwise_jsMapSet :
    ∀ (m : List (List Char × List Char)) (used : List (List Char)) (k v : List Char),
    (m.map (fun p => p.1)).Nodup →
    (m.map (fun p => p.2)).Pairwise (· ≠ ·) →
    (∀ x ∈ m.map (fun p => p.2), x ∈ used) →
    v ∉ used →
    ((jsMapSet m k v).map (fun p => p.2)).Pairwise (· ≠ ·) := by
  intro m
  induction m with
  | nil =>
    intro used k v _ _ _ _
    unfold jsMapSet
    simp
  | cons hd m' ih =>
    intro used k v hkeys hvals hsub hv
    obtain ⟨k0, v0⟩ := hd
    by_cases hk0 : (k0 == k)
    · have hany : ((k0, v0) :: m').any (fun p => p.1 == k) = true := by
        simp only [List.any_cons]
        rw [hk0]
        simp
      unfold jsMapSet
      rw [if_pos hany, List.map_cons]
      dsimp only
      rw [if_pos hk0]
      have hnok : ∀ p ∈ m', (p.1 == k) = false := by
        intro p hp
        have hk0nin : k0 ∉ m'.map (fun p => p.1) := by
          rw [List.map_cons, List.nodup_cons] at hkeys
          exact hkeys.1
        rw [Bool.eq_false_iff]
        intro hbeq
        apply hk0nin
        rw [List.mem_map]
        exact ⟨p, hp, by rw [eq_of_beq hbeq, eq_of_beq hk0]⟩
      rw [noKey_mapReplace hnok, List.map_cons]
      rw [List.map_cons, List.pairwise_cons] at hvals
      rw [List.pairwise_cons]
      refine ⟨?_, hvals.2⟩
      intro x hx hvx
      have hxv : v = x := hvx
      apply hv
      rw [hxv]
      exact hsub x (by rw [List.map_cons]; exact List.mem_cons_of_mem _ hx)
    · by_cases hm' : m'.any (fun p => p.1 == k)
      · have hany : ((k0, v0) :: m').any (fun p => p.1 == k) = true := by
          simp only [List.any_cons]
          rw [hm']
          simp
        unfold jsMapSet
        rw [if_pos hany, List.map_cons]
        dsimp only
        rw [if_neg (by simpa using hk0)]
        rw [List.map_cons, List.pairwise_cons]
        have hset : (jsMapSet m' k v).map (fun p => p.2) =
            (m'.map (fun p => if p.1 == k then (k, v) else p)).map (fun p => p.2) := by
          unfold jsMapSet
          rw [if_pos hm']
        rw [List.map_cons, List.nodup_cons] at hkeys
        rw [List.map_cons, List.pairwise_cons] at hvals
        constructor
        · intro x hx
          have hx' : x ∈ (jsMapSet m' k v).map (fun p => p.2) := by
            rw [hset]; exact hx
          rcases mem_values_jsMapSet hx' with hxv | hxm
          · intro hvx
            have h1 : (k0, v0).2 = x := hvx
            apply hv
            rw [← hxv, ← h1]
            exact hsub _ (by rw [List.map_cons]; exact List.mem_cons_self _ _)
          · exact hvals.1 x hxm
        · have := ih used k v hkeys.2 hvals.2
            (fun x hx => hsub x (by rw [List.map_cons]; exact List.mem_cons_of_mem _ hx)) hv
          rw [hset] at this
          exact this
      · have hk0f : (k0 == k) = false := by
          cases hb : (k0 == k) with
          | false => rfl
          | true => exact absurd hb hk0
        have hm'f : (m'.any fun p => p.1 == k) = false := by
          cases hb : (m'.any fun p => p.1 == k) with
          | false => rfl
          | true => exact absurd hb hm'
        have hany : ((k0, v0) :: m').any (fun p => p.1 == k) = false := by
          rw [List.any_cons, hk0f, hm'f]
          rfl
        unfold jsMapSet
        rw [if_neg (by rw [hany]; simp)]
        rw [List.map_append]
        rw [List.pairwise_append]
        refine ⟨hvals, by simp, ?_⟩
        intro a ha b hb
        simp only [List.map_cons, List.map_nil, List.mem_singleton] at hb
        subst hb
        intro hab
        apply hv
        rw [← hab]
        exact hsub a ha

theorem headerIdsAux_values_pairwise :
    ∀ (ts : List (List Char)) (acc : List (List Char × List Char))
      (used : List (List Char)),
    (acc.map (fun p => p.1)).Nodup →
    (acc.map (fun p => p.2)).Pairwise (· ≠ ·) →
    (∀ x ∈ acc.map (fun p => p.2), x ∈ used) →
    ((headerIdsAux ts acc used).map (fun p => p.2)).Pairwise (· ≠ ·) := by
  intro ts
  induction ts with
  | nil => intro acc used _ hvals _; exact hvals
  | cons t ts ih =>
    intro acc used hkeys hvals hsub
    obtain ⟨slug, heq, hnin⟩ := generateUniqueSlug_fresh t used
    rw [headerIdsAux, heq]
    apply ih
    · exact keys_nodup_jsMapSet hkeys
    · exact values_pairwise_jsMapSet acc used t slug hkeys hvals hsub hnin
    · intro x hx
      rcases mem_values_jsMapSet hx with hxv | hxm
      · rw [hxv]; exact List.mem_cons_self _ _
      · exact List.mem_cons_of_mem _ (hsub x hxm)

/-! ## Claim C5 -/
/--
C5: all slugs in the map returned by `precomputeHeaderIds` are pairwise
distinct — every generated slug is absent from the shared used-id set at
generation time, and overwriting a map key replaces its old slug with the
fresh one.
-/
theorem claimC5_theorem : ∀ content : List Char,
    ((precomputeHeaderIds content).map (fun p => p.2)).Pairwise (· ≠ ·) := by
  intro content
  unfold precomputeHeaderIds
  by_cases hc : content.isEmpty
  · rw [if_pos hc]; simp
  · rw [if_neg hc]
    exact headerIdsAux_values_pairwise _ [] [] (by simp) (by simp) (by simp)

/-! ## Claim C7 -/
/--
C7: `generateUniqueSlug` computes the base slug (`"heading"` when `slugify`
returns the empty string); if it is absent from `existingIds` it inserts and
returns it, otherwise it returns `base-k` for the least `k ≥ 2` whose
candidate is absent, inserting that.
-/
theorem claimC7_theorem : ∀ (text : List Char) (existingIds : List (List Char)),
    ((if slugify text == [] then strToL "heading" else slugify text) ∉ existingIds →
      generateUniqueSlug text existingIds =
        ((if slugify text == [] then strToL "heading" else slugify text),
          (if slugify text == [] then strToL "heading" else slugify text) :: existingIds)) ∧
    ((if slugify text == [] then strToL "heading" else slugify text) ∈ existingIds →
      ∃ k, 2 ≤ k ∧
        slugCand (if slugify text == [] then strToL "heading" else slugify text) k ∉ existingIds ∧
        (∀ j, 2 ≤ j → j < k →
          slugCand (if slugify text == [] then strToL "heading" else slugify text) j ∈ existingIds) ∧
        generateUniqueSlug text existingIds =
          (slugCand (if slugify text == [] then strToL "heading" else slugify text) k,
            slugCand (if slugify text == [] then strToL "heading" else slugify text) k ::
              existingIds)) := by
  intro text ids
  set base := (if slugify text == [] then strToL "heading" else slugify text) with hbase
  constructor
  · intro hnin
    have hb : jsSetHas ids base = false := jsSetHas_false_iff.mpr hnin
    unfold generateUniqueSlug
    simp only [← hbase]
    rw [hb]
    simp only [Bool.not_false, if_true]
    have hadd : jsSetAdd ids base = base :: ids := by
      unfold jsSetAdd
      rw [hb]
      simp
    rw [hadd]
  · intro hin
    have hb : jsSetHas ids base = true := jsSetHas_iff.mpr hin
    obtain ⟨hle, hfree, hmin⟩ := guFind_spec (guFind_exists base ids)
    refine ⟨guFind base ids (ids.length + 1) 2, hle, jsSetHas_false_iff.mp hfree, ?_, ?_⟩
    · intro j h2 hj
      exact jsSetHas_iff.mp (hmin j h2 hj)
    · unfold generateUniqueSlug
      simp only [← hbase]
      rw [hb]
      simp only [Bool.not_true, Bool.false_eq_true, if_false]
      have hadd : jsSetAdd ids (slugCand base (guFind base ids (ids.length + 1) 2)) =
          slugCand base (guFind base ids (ids.length + 1) 2) :: ids := by
        unfold jsSetAdd
        rw [hfree]
        simp
      rw [hadd]

/-- Witness for C7: text `"A"` against a set already holding `"a"` yields
`"a-2"`. -/
theorem claimC7_witness :
    ((if slugify (strToL "A") == [] then strToL "heading" else slugify (strToL "A")) ∈
        [strToL "a"]) ∧
      (∃ k, 2 ≤ k ∧
        slugCand (if slugify (strToL "A") == [] then strToL "heading"
          else slugify (strToL "A")) k ∉ [strToL "a"] ∧
        (∀ j, 2 ≤ j → j < k →
          slugCand (if slugify (strToL "A") == [] then strToL "heading"
            else slugify (strToL "A")) j ∈ [strToL "a"]) ∧
        generateUniqueSlug (strToL "A") [strToL "a"] =
          (slugCand (if slugify (strToL "A") == [] then strToL "heading"
            else slugify (strToL "A")) k,
            slugCand (if slugify (strToL "A") == [] then strToL "heading"
              else slugify (strToL "A")) k :: [strToL "a"])) :=
  ⟨by decide, (claimC7_theorem (strToL "A") [strToL "a"]).2 (by decide)⟩

theorem find?_mapReplace {k v T : List Char} (hT : ¬ T = k) :
    ∀ m : List (List Char × List Char),
    (m.map (fun p => if p.1 == k then (k, v) else p)).find? (fun p => p.1 == T) =
      m.find? (fun p => p.1 == T) := by
  intro m
  induction m with
  | nil => rfl
  | cons a m ih =>
    rw [List.map_cons, List.find?_cons, List.find?_cons]
    by_cases hk : (a.1 == k) = true
    · rw [if_pos hk]
      have h1 : (((k, v) : List Char × List Char).1 == T) = false := by
        dsimp only
        rw [beq_eq_false_iff_ne]
        exact fun h => hT h.symm
      have h2 : (a.1 == T) = false := by
        rw [beq_eq_false_iff_ne]
        rw [eq_of_beq hk]
        exact fun h => hT h.symm
      simp only [h1, h2]
      exact ih
    · rw [if_neg hk]
      cases ha : a.1 == T
      · simp only [ha]
        exact ih
      · simp only [ha]

theorem find?_mapReplace_self {k v : List Char} :
    ∀ m : List (List Char × List Char),
    m.any (fun p => p.1 == k) = true →
    (m.map (fun p => if p.1 == k then (k, v) else p)).find? (fun p => p.1 == k) =
      some (k, v) := by
  intro m
  induction m with
  | nil => intro h; simp at h
  | cons a m ih =>
    intro h
    rw [List.map_cons, List.find?_cons]
    cases hk : a.1 == k
    · simp only [Bool.false_eq_true, if_false]
      simp only [hk]
      apply ih
      rcases List.any_eq_true.mp h with ⟨p, hp, hpk⟩
      rcases List.mem_cons.mp hp with hpa | hpm
      · exfalso
        rw [hpa] at hpk
        rw [hpk] at hk
        cases hk
      · rw [List.any_eq_true]
        exact ⟨p, hpm, hpk⟩
    · simp

theorem lookup_jsMapSet (m : List (List Char × List Char)) (k v T : List Char) :
    jsMapLookup (jsMapSet m k v) T = if T = k then some v else jsMapLookup m T := by
  unfold jsMapLookup jsMapSet
  by_cases hany : m.any (fun p => p.1 == k) = true
  · rw [if_pos hany]
    by_cases hT : T = k
    · rw [if_pos hT]
      subst hT
      rw [find?_mapReplace_self m hany]
      rfl
    · rw [if_neg hT, find?_mapReplace hT m]
  · rw [if_neg hany]
    rw [List.find?_append]
    by_cases hT : T = k
    · rw [if_pos hT]
      subst hT
      have hnone : m.find? (fun p => p.1 == T) = none := by
        rw [List.find?_eq_none]
        intro p hp hcon
        exact hany (List.any_eq_true.mpr ⟨p, hp, hcon⟩)
      rw [hnone]
      have hq : (((T, v) : List Char × List Char).1 == T) = true := by simp
      rw [List.find?_cons]
      simp only [hq, Option.none_or]
      rfl
    · rw [if_neg hT]
      have hq : (((k, v) : List Char × List Char).1 == T) = false := by
        dsimp only
        rw [beq_eq_false_iff_ne]
        exact fun h => hT h.symm
      rw [List.find?_cons]
      simp only [hq, List.find?_nil, Option.or_none]

theorem headerSlugPairsAux_keys : ∀ (ts used : List (List Char)),
    (headerSlugPairsAux ts used).map (fun p => p.1) = ts := by
  intro ts
  induction ts with
  | nil => intro used; rfl
  | cons t ts ih =>
    intro used
    simp only [headerSlugPairsAux, List.map_cons]
    rw [ih]

theorem headerSlugPairsAux_values : ∀ (ts used : List (List Char)),
    (∀ x ∈ (headerSlugPairsAux ts used).map (fun p => p.2), x ∉ used) ∧
    ((headerSlugPairsAux ts used).map (fun p => p.2)).Nodup := by
  intro ts
  induction ts with
  | nil => intro used; exact ⟨by simp [headerSlugPairsAux], by simp [headerSlugPairsAux]⟩
  | cons t ts ih =>
    intro used
    obtain ⟨slug, heq, hnin⟩ := generateUniqueSlug_fresh t used
    have hrw : headerSlugPairsAux (t :: ts) used =
        (t, slug) :: headerSlugPairsAux ts (slug :: used) := by
      simp only [headerSlugPairsAux]
      rw [heq]
    rw [hrw, List.map_cons]
    obtain ⟨hdisj, hnd⟩ := ih (slug :: used)
    constructor
    · intro x hx
      rcases List.mem_cons.mp hx with hx1 | hx2
      · rw [hx1]; exact hnin
      · intro hxu
        exact hdisj x hx2 (List.mem_cons_of_mem _ hxu)
    · rw [List.nodup_cons]
      refine ⟨?_, hnd⟩
      intro hmem
      exact hdisj slug hmem (List.mem_cons_self _ _)

theorem headerIdsAux_keys_nodup : ∀ (ts : List (List Char))
    (acc : List (List Char × List Char)) (used : List (List Char)),
    (acc.map (fun p => p.1)).Nodup →
    ((headerIdsAux ts acc used).map (fun p => p.1)).Nodup := by
  intro ts
  induction ts with
  | nil => intro acc used h; exact h
  | cons t ts ih =>
    intro acc used h
    simp only [headerIdsAux]
    exact ih _ _ (keys_nodup_jsMapSet h)

theorem mem_keys_jsMapSet_of_mem {m : List (List Char × List Char)} {k v T : List Char}
    (h : T ∈ m.map (fun p => p.1)) : T ∈ (jsMapSet m k v).map (fun p => p.1) := by
  rw [keys_jsMapSet]
  split
  · exact h
  · exact List.mem_append_left _ h

theorem mem_keys_jsMapSet_self (m : List (List Char × List Char)) (k v : List Char) :
    k ∈ (jsMapSet m k v).map (fun p => p.1) := by
  rw [keys_jsMapSet]
  by_cases hc : m.any (fun p => p.1 == k) = true
  · rw [if_pos hc]
    rcases List.any_eq_true.mp hc with ⟨p, hp, hpk⟩
    rw [List.mem_map]
    exact ⟨p, hp, eq_of_beq hpk⟩
  · rw [if_neg hc]
    exact List.mem_append_right _ (by simp)

theorem mem_keys_headerIdsAux_of_mem : ∀ (ts : List (List Char))
    (acc : List (List Char × List Char)) (used : List (List Char)) (T : List Char),
    T ∈ acc.map (fun p => p.1) → T ∈ (headerIdsAux ts acc used).map (fun p => p.1) := by
  intro ts
  induction ts with
  | nil => intro acc used T h; exact h
  | cons t ts ih =>
    intro acc used T h
    simp only [headerIdsAux]
    exact ih _ _ _ (mem_keys_jsMapSet_of_mem h)

theorem mem_keys_headerIdsAux : ∀ (ts : List (List Char))
    (acc : List (List Char × List Char)) (used : List (List Char)) (T : List Char),
    T ∈ ts → T ∈ (headerIdsAux ts acc used).map (fun p => p.1) := by
  intro ts
  induction ts with
  | nil => intro acc used T h; cases h
  | cons t ts ih =>
    intro acc used T h
    simp only [headerIdsAux]
    rcases List.mem_cons.mp h with h1 | h2
    · subst h1
      exact mem_keys_headerIdsAux_of_mem ts _ _ T (mem_keys_jsMapSet_self acc T _)
    · exact ih _ _ _ h2

theorem headerIdsAux_lookup : ∀ (ts : List (List Char))
    (acc : List (List Char × List Char)) (used : List (List Char)) (T : List Char),
    jsMapLookup (headerIdsAux ts acc used) T =
      (((headerSlugPairsAux ts used).reverse.find? (fun p => p.1 == T)).map
          (fun p => p.2)).or (jsMapLookup acc T) := by
  intro ts
  induction ts with
  | nil =>
    intro acc used T
    simp [headerIdsAux, headerSlugPairsAux]
  | cons t ts ih =>
    intro acc used T
    obtain ⟨slug, heq, _⟩ := generateUniqueSlug_fresh t used
    have h1 : headerIdsAux (t :: ts) acc used =
        headerIdsAux ts (jsMapSet acc t slug) (slug :: used) := by
      simp only [headerIdsAux]
      rw [heq]
    have h2 : headerSlugPairsAux (t :: ts) used =
        (t, slug) :: headerSlugPairsAux ts (slug :: used) := by
      simp only [headerSlugPairsAux]
      rw [heq]
    rw [h1, h2, ih, List.reverse_cons, List.find?_append, lookup_jsMapSet]
    cases hA : (headerSlugPairsAux ts (slug :: used)).reverse.find? (fun p => p.1 == T) with
    | some p => simp
    | none =>
      simp only [Option.none_or, Option.map_none']
      by_cases hT : T = t
      · rw [if_pos hT]
        have hq : (((t, slug) : List Char × List Char).1 == T) = true := by
          dsimp only
          rw [beq_iff_eq]
          exact hT.symm
        rw [List.find?_cons]
        simp only [hq]
        rfl
      · rw [if_neg hT]
        have hq : (((t, slug) : List Char × List Char).1 == T) = false := by
          dsimp only
          rw [beq_eq_false_iff_ne]
          exact fun h => hT h.symm
        rw [List.find?_cons]
        simp only [hq, List.find?_nil, Option.map_none', Option.none_or]

/-! ## Claim C9 -/
theorem count_eq_one_of_nodup_mem : ∀ {l : List (List Char)} {a : List Char},
    l.Nodup → a ∈ l → l.count a = 1 := by
  intro l
  induction l with
  | nil => intro a _ hm; cases hm
  | cons x l ih =>
    intro a hn hm
    rw [List.nodup_cons] at hn
    rcases List.mem_cons.mp hm with h1 | h2
    · subst h1
      rw [List.count_cons_self]
      have h0 : l.count a = 0 := List.count_eq_zero.mpr hn.1
      omega
    · rw [List.count_cons_of_ne, ih hn.2 h2]
      intro h
      rw [h] at h2
      exact hn.1 h2

/--
C9: when the same trimmed header text `T` is extracted at least twice, the
map returned by `precomputeHeaderIds` holds exactly one entry keyed `T`; its
value is the slug generated for the last occurrence of `T`, and it differs
from the slug generated for the first occurrence, which is therefore not
retrievable from the map by text lookup.
-/
theorem claimC9_theorem : ∀ (content T : List Char),
    2 ≤ (extractMarkdownHeaders content).count T →
    ((precomputeHeaderIds content).map (fun p => p.1)).count T = 1 ∧
    ∃ pLast,
      (headerSlugPairs content).reverse.find? (fun p => p.1 == T) = some pLast ∧
      jsMapLookup (precomputeHeaderIds content) T = some pLast.2 ∧
      ∀ pFirst, (headerSlugPairs content).find? (fun p => p.1 == T) = some pFirst →
        pFirst.2 ≠ pLast.2 := by
  intro content T hcount
  have hne : content.isEmpty = false := by
    by_contra hc
    rw [Bool.not_eq_false] at hc
    simp [extractMarkdownHeaders, hc] at hcount
  have hM : precomputeHeaderIds content =
      headerIdsAux (extractMarkdownHeaders content) [] [] := by
    simp [precomputeHeaderIds, hne]
  have hP : headerSlugPairs content =
      headerSlugPairsAux (extractMarkdownHeaders content) [] := rfl
  have hmem : T ∈ extractMarkdownHeaders content :=
    List.count_pos_iff.mp (by omega)
  have hkeys : (headerSlugPairsAux (extractMarkdownHeaders content) []).map
      (fun p => p.1) = extractMarkdownHeaders content :=
    headerSlugPairsAux_keys _ []
  obtain ⟨hvdisj, hvnodup⟩ :=
    headerSlugPairsAux_values (extractMarkdownHeaders content) []
  refine ⟨?_, ?_⟩
  · rw [hM]
    exact count_eq_one_of_nodup_mem
      (headerIdsAux_keys_nodup _ [] [] (by simp))
      (mem_keys_headerIdsAux _ [] [] T hmem)
  · have hF : (headerSlugPairsAux (extractMarkdownHeaders content) []).find?
        (fun p => p.1 == T) =
        ((headerSlugPairsAux (extractMarkdownHeaders content) []).filter
          (fun p => p.1 == T)).head? := (List.filter_head? _ _).symm
    have hFr : (headerSlugPairsAux (extractMarkdownHeaders content) []).reverse.find?
        (fun p => p.1 == T) =
        ((headerSlugPairsAux (extractMarkdownHeaders content) []).filter
          (fun p => p.1 == T)).reverse.head? := by
      rw [← List.filter_head?, List.filter_reverse]
    have hlenF : 2 ≤ ((headerSlugPairsAux (extractMarkdownHeaders content) []).filter
        (fun p => p.1 == T)).length := by
      rw [← List.countP_eq_length_filter]
      have hcnt : ((headerSlugPairsAux (extractMarkdownHeaders content) []).map
          (fun p => p.1)).count T =
          (headerSlugPairsAux (extractMarkdownHeaders content) []).countP
            (fun p => p.1 == T) := by
        rw [List.count, List.countP_map]
        rfl
      rw [hkeys] at hcnt
      omega
    obtain ⟨a, F1, hF1⟩ := List.exists_cons_of_ne_nil
      (l := (headerSlugPairsAux (extractMarkdownHeaders content) []).filter
        (fun p => p.1 == T))
      (by intro h; rw [h] at hlenF; simp at hlenF)
    obtain ⟨b, F2, hF2⟩ := List.exists_cons_of_ne_nil (l := F1)
      (by intro h; rw [hF1, h] at hlenF; simp at hlenF)
    rw [hF2] at hF1
    have hrev : ((headerSlugPairsAux (extractMarkdownHeaders content) []).filter
        (fun p => p.1 == T)).reverse = (b :: F2).reverse ++ [a] := by
      rw [hF1, List.reverse_cons]
    obtain ⟨c, R2, hR⟩ := List.exists_cons_of_ne_nil (l := (b :: F2).reverse)
      (by intro h; have := congrArg List.length h; simp at this)
    have hlast : ((headerSlugPairsAux (extractMarkdownHeaders content) []).filter
        (fun p => p.1 == T)).reverse.head? = some c := by
      rw [hrev, hR]
      rfl
    have hcmem : c ∈ b :: F2 := by
      rw [← List.mem_reverse, hR]
      exact List.mem_cons_self _ _
    have hFnodup : (((headerSlugPairsAux (extractMarkdownHeaders content) []).filter
        (fun p => p.1 == T)).map (fun p => p.2)).Nodup :=
      List.Nodup.sublist
        (List.Sublist.map (fun p => p.2)
          (List.filter_sublist (headerSlugPairsAux (extractMarkdownHeaders content) [])))
        hvnodup
    have hane : a.2 ≠ c.2 := by
      rw [hF1, List.map_cons, List.nodup_cons] at hFnodup
      intro hac
      apply hFnodup.1
      rw [hac]
      exact List.mem_map.mpr ⟨c, hcmem, rfl⟩
    refine ⟨c, ?_, ?_, ?_⟩
    · rw [hP, hFr, hlast]
    · rw [hM, headerIdsAux_lookup, hFr, hlast]
      simp [jsMapLookup]
    · intro pFirst hpf
      rw [hP, hF, hF1] at hpf
      have hpa : a = pFirst := by
        simpa using hpf
      rw [← hpa]
      exact hane

/-- Witness for C9: the document `"# Intro\npara\n# Intro"` extracts the
header text `"Intro"` twice; the map keeps one entry whose slug is the
second occurrence's suffixed slug, not the first occurrence's base slug. -/
theorem claimC9_witness :
    2 ≤ (extractMarkdownHeaders (strToL "# Intro\npara\n# Intro")).count (strToL "Intro") ∧
    (((precomputeHeaderIds (strToL "# Intro\npara\n# Intro")).map
        (fun p => p.1)).count (strToL "Intro") = 1 ∧
      ∃ pLast,
        (headerSlugPairs (strToL "# Intro\npara\n# Intro")).reverse.find?
            (fun p => p.1 == strToL "Intro") = some pLast ∧
        jsMapLookup (precomputeHeaderIds (strToL "# Intro\npara\n# Intro"))
            (strToL "Intro") = some pLast.2 ∧
        ∀ pFirst,
          (headerSlugPairs (strToL "# Intro\npara\n# Intro")).find?
              (fun p => p.1 == strToL "Intro") = some pFirst →
          pFirst.2 ≠ pLast.2) :=
  ⟨by decide, claimC9_theorem (strToL "# Intro\npara\n# Intro") (strToL "Intro") (by decide)⟩

theorem extractAux_filterMap : ∀ (lines : List (List Char)) (fence : Option Char),
    extractAux lines fence =
      (lines.zip (statesFrom fence lines)).filterMap
        (fun p => match p.2 with
          | some _ => none
          | none => lineHeaderOutside p.1) := by
  intro lines
  induction lines with
  | nil => intro fence; rfl
  | cons line rest ih =>
    intro fence
    rw [statesFrom, List.zip_cons_cons, List.filterMap_cons]
    cases hfr : fenceRun (trimJs line) with
    | some fc =>
      cases fence with
      | none =>
        simp only [extractAux, hfr]
        have hout : lineHeaderOutside line = none := by
          rw [lineHeaderOutside, hfr]
          rfl
        simp only [hout]
        rw [ih, fenceStep, hfr]
      | some pc =>
        simp only [extractAux, hfr]
        by_cases hsw : startsWithAt (trimJs line) [pc, pc, pc] 0
        · rw [if_pos hsw, ih, fenceStep, hfr]
          dsimp only
          rw [if_pos hsw]
        · rw [if_neg hsw, ih, fenceStep, hfr]
          dsimp only
          rw [if_neg hsw]
    | none =>
      cases fence with
      | some pc =>
        simp only [extractAux, hfr, Option.isSome_some, if_true]
        rw [ih, fenceStep, hfr]
      | none =>
        have hstep : fenceStep none line = none := by rw [fenceStep, hfr]
        simp only [extractAux, hfr, Option.isSome_none, Bool.false_eq_true, if_false]
        by_cases hind : indentMatch line
        · rw [if_pos hind]
          have hout : lineHeaderOutside line = none := by
            rw [lineHeaderOutside, hfr]
            simp [hind]
          simp only [hout]
          rw [ih, hstep]
        · rw [if_neg hind]
          cases hlm : lineHeaderMatch (trimJs line) with
          | some t =>
            cases hcond : (!allBackticks (trimJs t) && !isInsideInlineCode line 0) with
            | true =>
              have hout : lineHeaderOutside line = some (trimJs t) := by
                rw [lineHeaderOutside, hfr]
                simp [hind, hlm]
                simpa using hcond
              simp only [hlm, hout, if_pos hcond]
              rw [ih, hstep]
            | false =>
              have hout : lineHeaderOutside line = none := by
                rw [lineHeaderOutside, hfr]
                simp [hind, hlm, hcond]
                intro h1
                simpa [h1] using hcond
              have hcond2 : ¬((!allBackticks (trimJs t) && !isInsideInlineCode line 0) = true) := by
                simp [hcond]
              simp only [hlm, hout, if_neg hcond2]
              rw [ih, hstep]
          | none =>
            have hout : lineHeaderOutside line = none := by
              rw [lineHeaderOutside, hfr]
              simp [hind, hlm]
            simp only [hlm, hout]
            rw [ih, hstep]

/-! ## Claim C6 -/
/--
C6: every extracted header comes from a line whose fence flag is clear — a
line inside a fenced code block (opened by a line whose trimmed content
starts with 3+ backticks or tildes, closed only by a later line starting
with three of that same character, per `fenceStep`) is never extracted —
and on the fenced example document exactly `["real header"]` is returned.
-/
theorem claimC6_theorem :
    (∀ (content h : List Char), h ∈ extractMarkdownHeaders content →
      ∃ (i : Nat) (line : List Char), (splitNl content)[i]? = some line ∧
        (statesFrom none (splitNl content))[i]? = some none ∧
        lineHeaderOutside line = some h) ∧
    extractMarkdownHeaders (strToL "```\n# not a header\n```\n# real header") =
      [strToL "real header"] := by
  constructor
  · intro content h hmem
    have hx : h ∈ extractAux (splitNl content) none := by
      unfold extractMarkdownHeaders at hmem
      split at hmem
      · cases hmem
      · exact hmem
    rw [extractAux_filterMap, List.mem_filterMap] at hx
    obtain ⟨p, hp, hph⟩ := hx
    cases hp2 : p.2 with
    | some fc =>
      rw [hp2] at hph
      cases hph
    | none =>
      rw [hp2] at hph
      obtain ⟨i, hi⟩ := List.mem_iff_getElem?.mp hp
      obtain ⟨hi1, hi2⟩ := List.getElem?_zip_eq_some.mp (by rw [← hi])
      refine ⟨i, p.1, hi1, ?_, hph⟩
      rw [hi2, hp2]
  · decide

/-- Witness for C6: the sole extracted header of the fenced example document
is located on its fourth line, outside any fence. -/
theorem claimC6_witness :
    (strToL "real header") ∈
      extractMarkdownHeaders (strToL "```\n# not a header\n```\n# real header") ∧
    ∃ (i : Nat) (line : List Char),
      (splitNl (strToL "```\n# not a header\n```\n# real header"))[i]? = some line ∧
      (statesFrom none
        (splitNl (strToL "```\n# not a header\n```\n# real header")))[i]? = some none ∧
      lineHeaderOutside line = some (strToL "real header") :=
  ⟨by decide,
    claimC6_theorem.1 (strToL "```\n# not a header\n```\n# real header")
      (strToL "real header") (by decide)⟩

end MV
